import Mathlib

/-!
Formal model of the Wa-Tor predator-prey simulation engine from `src/main.rs`
of the `wator` repository.

The source fixes the grid size through the constants `WIDTH`/`HEIGHT`; the
model takes the grid width `W` and height `H` as explicit parameters so that
statements quantify over grids, and the source's concrete instance is the
case `W = 640`, `H = 480`.

Randomness in the source comes from `rand::thread_rng()` in two forms:
`choose_multiple` / `gen_range` during `World::new`, and `directions.shuffle`
during `World::update`.  The model treats the random draws as oracle inputs:
`World.new` receives the list of chosen cell indices and the lists of drawn
initial timers, and `World.update` receives an `Rng`, a stream of shuffled
direction arrays consumed one per entity (the source shuffles once per fish
and once per shark).  Side conditions on the oracles (the chosen indices are
distinct, in range, of length `min (F+S) (W*H)`; every shuffle output is a
permutation of the four unit directions) mirror the documented contracts of
the `rand` crate and appear as hypotheses of the theorems.

Machine integers: positions are `isize` in the source and are modelled as
`Int`; the `u8` timers (`TimeType`) are modelled as `Nat` with every
increment taken modulo `256`, matching release-mode wrapping arithmetic.
-/

/-- Wrap a coordinate back into `[0, m)` when it is off by at most one
modulus step; mirrors `nudge_into_range` in the source. -/
def nudge_into_range (x m : Int) : Int :=
  if x < 0 then x + m else if m ≤ x then x - m else x

/-- A grid position, `struct Point { x: isize, y: isize }` in the source. -/
structure Point where
  x : Int
  y : Int
deriving DecidableEq

/-- `Point::from_ix`: unflatten a cell index. -/
def Point.from_ix (W : Nat) (ix : Nat) : Point :=
  ⟨((ix % W : Nat) : Int), ((ix / W : Nat) : Int)⟩

/-- `Point::offset`: apply a direction vector with toroidal wrapping. -/
def Point.offset (W H : Nat) (p : Point) (dx dy : Int) : Point :=
  ⟨nudge_into_range (p.x + dx) (W : Int), nudge_into_range (p.y + dy) (H : Int)⟩

/-- The cell-state codes of `enum Content`. -/
inductive Content where
  | Empty
  | Fish
  | NewFish
  | Shark
  | NewShark
  | FedShark
deriving DecidableEq

/-- The `repr(u8)` discriminant values assigned in the source
(`NewFish = 1 | 4`, `NewShark = 2 | 4`, `FedShark = 2 | 8`). -/
def Content.code : Content → Nat
  | .Empty => 0
  | .Fish => 1
  | .NewFish => 5
  | .Shark => 2
  | .NewShark => 6
  | .FedShark => 10

/-- `Content::is_empty`: `*self as u8 == 0`. -/
def Content.is_empty (c : Content) : Bool := c.code == 0

/-- `Content::is_fish`: `*self as u8 & 1 != 0`. -/
def Content.is_fish (c : Content) : Bool := (c.code &&& 1) != 0

/-- `Content::is_shark`: `*self as u8 & 2 != 0`. -/
def Content.is_shark (c : Content) : Bool := (c.code &&& 2) != 0

/-- `struct Fish { pos, repro_time }`; the `u8` timer is a `Nat` kept
below `256` by wrapping increments. -/
structure Fish where
  pos : Point
  repro_time : Nat
deriving DecidableEq

/-- `Fish::new`. -/
def Fish.new (pos : Point) : Fish := ⟨pos, 0⟩

/-- `struct Shark { pos, repro_time, starve }`. -/
structure Shark where
  pos : Point
  repro_time : Nat
  starve : Nat
deriving DecidableEq

/-- `Shark::new`. -/
def Shark.new (pos : Point) : Shark := ⟨pos, 0, 0⟩

/-- The occupancy grid, `struct Board { data: Vec<Content> }`. -/
structure Board where
  data : List Content
deriving DecidableEq

/-- `Board::new`: all cells start `Empty`. -/
def Board.new (W H : Nat) : Board := ⟨List.replicate (W * H) Content.Empty⟩

/-- The flattened index `p.y as usize * WIDTH + p.x as usize` used by
`Board::get` / `Board::get_mut` (coordinates are always pre-wrapped into
range by `Point::offset` before reaching the board). -/
def Board.ix (W : Nat) (p : Point) : Nat := p.y.toNat * W + p.x.toNat

/-- `Board::get`. -/
def Board.get (W : Nat) (b : Board) (p : Point) : Content :=
  b.data.getD (Board.ix W p) Content.Empty

/-- Writing through `Board::get_mut`. -/
def Board.set (W : Nat) (b : Board) (p : Point) (c : Content) : Board :=
  ⟨b.data.set (Board.ix W p) c⟩

/-- The direction array `[(-1, 0), (1, 0), (0, -1), (0, 1)]` of
`World::update` in its initial order. -/
def baseDirections : List (Int × Int) := [(-1, 0), (1, 0), (0, -1), (0, 1)]

/-- Oracle for `directions.shuffle(rng)`: a stream of shuffled direction
arrays, one consumed per entity processed.  An exhausted stream yields the
unshuffled array (itself one of the possible shuffle outcomes). -/
structure Rng where
  shuffles : List (List (Int × Int))
deriving DecidableEq

/-- Pop the next shuffled direction array. -/
def Rng.next : Rng → (List (Int × Int)) × Rng
  | ⟨[]⟩ => (baseDirections, ⟨[]⟩)
  | ⟨ds :: rest⟩ => (ds, ⟨rest⟩)

/-- Contract of `shuffle`: every emitted direction array only contains the
four unit directions of the source's `directions` array. -/
def Rng.Valid (r : Rng) : Prop :=
  ∀ ds ∈ r.shuffles, ∀ d ∈ ds, d ∈ baseDirections

/-- The `// Move.` block of the fish loop in `World::update`: move to the
first scanned neighbour whose cell `is_empty`. -/
def fishMove (W H : Nat) (board : Board) (fish : Fish) (dirs : List (Int × Int)) :
    Board × Fish :=
  match dirs.find? (fun d => (board.get W (fish.pos.offset W H d.1 d.2)).is_empty) with
  | some d =>
      let q := fish.pos.offset W H d.1 d.2
      (((board.set W fish.pos Content.Empty).set W q Content.Fish),
        { fish with pos := q })
  | none => (board, fish)

/-- One fish's turn in the fish phase of `World::update`: move, then
`// Breed if moved.`  Returns the updated board, the updated fish, and the
newborn fish (if it bred). -/
def fishStep (W H τ : Nat) (board : Board) (fish : Fish) (dirs : List (Int × Int)) :
    Board × Fish × Option Fish :=
  let start := fish.pos
  let moved := fishMove W H board fish dirs
  let board1 := moved.1
  let fish1 := moved.2
  if start ≠ fish1.pos then
    let r := (fish1.repro_time + 1) % 256
    if τ ≤ r then
      ((board1.set W start Content.NewFish), { fish1 with repro_time := 0 },
        some (Fish.new start))
    else
      (board1, { fish1 with repro_time := r }, none)
  else
    (board1, fish1, none)

/-- The `// Eat.` block of the shark loop: move onto the first scanned
neighbour whose cell `is_fish`, marking it `FedShark` and recording the
eaten position; resets `starve` to `0`. -/
def sharkEat (W H : Nat) (board : Board) (shark : Shark) (dirs : List (Int × Int)) :
    Board × Shark × Option Point :=
  match dirs.find? (fun d => (board.get W (shark.pos.offset W H d.1 d.2)).is_fish) with
  | some d =>
      let q := shark.pos.offset W H d.1 d.2
      (((board.set W shark.pos Content.Empty).set W q Content.FedShark),
        { shark with pos := q, starve := 0 }, some q)
  | none => (board, shark, none)

/-- The `// Move if not already moved.` block of the shark loop: move to the
first scanned neighbour whose cell `is_empty`. -/
def sharkMove (W H : Nat) (board : Board) (shark : Shark) (dirs : List (Int × Int)) :
    Board × Shark :=
  match dirs.find? (fun d => (board.get W (shark.pos.offset W H d.1 d.2)).is_empty) with
  | some d =>
      let q := shark.pos.offset W H d.1 d.2
      (((board.set W shark.pos Content.Empty).set W q Content.Shark),
        { shark with pos := q })
  | none => (board, shark)

/-- One shark's turn in the shark phase of `World::update`: eat, otherwise
move, then `// Breed if moved.`, then the unconditional
`shark.starve += 1`.  Returns the updated board, the updated shark, the
newborn shark (if it bred), and the eaten position (if it ate). -/
def sharkStep (W H σ : Nat) (board : Board) (shark : Shark)
    (dirs : List (Int × Int)) : Board × Shark × Option Shark × Option Point :=
  let start := shark.pos
  let ate := sharkEat W H board shark dirs
  let b1 := ate.1
  let s1 := ate.2.1
  let eaten := ate.2.2
  let moved := if start = s1.pos then sharkMove W H b1 s1 dirs else (b1, s1)
  let b2 := moved.1
  let s2 := moved.2
  let bred :=
    if start ≠ s2.pos then
      let r := (s2.repro_time + 1) % 256
      if r = σ then
        ((b2.set W start Content.NewShark), { s2 with repro_time := 0 },
          some (Shark.new start))
      else
        (b2, { s2 with repro_time := r }, none)
    else
      (b2, s2, none)
  (bred.1, { bred.2.1 with starve := (bred.2.1.starve + 1) % 256 }, bred.2.2, eaten)

/-- The fish phase of `World::update`: process the fish list in order,
threading the board and the shuffle stream; newborn fish are collected
separately (they are appended after the loop, so they are not visited in
their birth tick). -/
def fishPhaseAux (W H τ : Nat) (board : Board) (rng : Rng) :
    List Fish → Board × Rng × List Fish × List Fish
  | [] => (board, rng, [], [])
  | f :: rest =>
      let drawn := rng.next
      let step := fishStep W H τ board f drawn.1
      let next := fishPhaseAux W H τ step.1 drawn.2 rest
      (next.1, next.2.1, step.2.1 :: next.2.2.1, step.2.2.toList ++ next.2.2.2)

/-- The shark phase of `World::update`: process the shark list in order,
collecting newborn sharks and the positions of fish eaten this tick
(the source's `fishes_to_remove` set, modelled as the list of inserted
positions in insertion order). -/
def sharkPhaseAux (W H σ : Nat) (board : Board) (rng : Rng) :
    List Shark → Board × Rng × List Shark × List Shark × List Point
  | [] => (board, rng, [], [], [])
  | s :: rest =>
      let drawn := rng.next
      let step := sharkStep W H σ board s drawn.1
      let next := sharkPhaseAux W H σ step.1 drawn.2 rest
      (next.1, next.2.1, step.2.1 :: next.2.2.1,
        step.2.2.1.toList ++ next.2.2.2.1,
        step.2.2.2.toList ++ next.2.2.2.2)

/-- `let rest := vec[i+1..]` rearranged by `swap_remove(i)`: the last
element is moved into the hole at position `i`. -/
def lastToFront {α : Type} (l : List α) : List α :=
  match l.getLast? with
  | none => []
  | some a => a :: l.dropLast

/-- The loop body of `clear_by_cond`, with explicit fuel (the loop runs
exactly `vec.len()` iterations: each iteration either keeps one element or
swap-removes one). -/
def clearAux {α : Type} (should_remove : α → Bool) :
    Nat → List α → List α × List α
  | _, [] => ([], [])
  | 0, l => (l, [])
  | fuel + 1, x :: rest =>
      if should_remove x then
        let next := clearAux should_remove fuel (lastToFront rest)
        (next.1, x :: next.2)
      else
        let next := clearAux should_remove fuel rest
        (x :: next.1, next.2)

/-- `clear_by_cond`: remove (by `swap_remove`) every element satisfying
`should_remove`, returning the kept elements and the removed elements. -/
def clear_by_cond {α : Type} (should_remove : α → Bool) (vec : List α) :
    List α × List α :=
  clearAux should_remove vec.length vec

/-- `struct World`. -/
structure World where
  occupied : Board
  sharks : List Shark
  fishes : List Fish
  fish_repro_time : Nat
  shark_repro_time : Nat
  shark_starves : Nat
deriving DecidableEq

/-- `World::new`.  The oracle `chosen` stands for the result of
`(0..WIDTH*HEIGHT).choose_multiple(rng, n_fish + n_sharks)` (so its length
is `min (n_fish + n_sharks) (W*H)` per the `rand` contract), and
`fishTimers` / `sharkTimers` stand for the `gen_range(1..=threshold)` draws
made for each placed fish and shark in order. -/
def World.new (W H : Nat) (n_sharks n_fish : Nat)
    (fish_repro_time shark_repro_time shark_starves : Nat)
    (chosen : List Nat) (fishTimers sharkTimers : List Nat) : World :=
  let fishIxs := chosen.take n_fish
  let sharkIxs := chosen.drop n_fish
  let fishes := (fishIxs.zip fishTimers).map
    (fun it => { pos := Point.from_ix W it.1, repro_time := it.2 : Fish })
  let sharks := (sharkIxs.zip sharkTimers).map
    (fun it => { pos := Point.from_ix W it.1, repro_time := it.2, starve := 0 : Shark })
  let b0 := Board.new W H
  let b1 := fishes.foldl (fun b f => b.set W f.pos Content.Fish) b0
  let b2 := sharks.foldl (fun b s => b.set W s.pos Content.Shark) b1
  { occupied := b2, sharks := sharks, fishes := fishes,
    fish_repro_time := fish_repro_time, shark_repro_time := shark_repro_time,
    shark_starves := shark_starves }

/-- `World::update`: fish phase, shark phase, then the two compaction
passes (`// Clear eaten fish.` and `// Kill starved sharks.`). -/
def World.update (W H : Nat) (w : World) (rng : Rng) : World × Rng :=
  let fp := fishPhaseAux W H w.fish_repro_time w.occupied rng w.fishes
  let fishes1 := fp.2.2.1 ++ fp.2.2.2
  let sp := sharkPhaseAux W H w.shark_repro_time fp.1 fp.2.1 w.sharks
  let sharks1 := sp.2.2.1 ++ sp.2.2.2.1
  let eaten := sp.2.2.2.2
  let fclear := clear_by_cond (fun f => decide (f.pos ∈ eaten)) fishes1
  let sclear := clear_by_cond (fun s => decide (w.shark_starves ≤ s.starve)) sharks1
  let b3 := sclear.2.foldl (fun b s => b.set W s.pos Content.Empty) sp.1
  ({ w with occupied := b3, sharks := sclear.1, fishes := fclear.1 }, sp.2.1)

/-- Iterated ticks: `n` successive calls to `World::update`. -/
def World.ticks (W H : Nat) : Nat → World → Rng → World × Rng
  | 0, w, rng => (w, rng)
  | n + 1, w, rng =>
      let step := World.update W H w rng
      World.ticks W H n step.1 step.2

/-! ### Classification of cell codes -/

/-- Occupancy classes of the six cell codes: each code is empty-class,
fish-class (`Fish`/`NewFish`) or shark-class (`Shark`/`NewShark`/`FedShark`),
and these classes are mutually exclusive. -/
theorem Content.class_split (c : Content) :
    (c.is_empty = true ∧ c.is_fish = false ∧ c.is_shark = false) ∨
    (c.is_empty = false ∧ c.is_fish = true ∧ c.is_shark = false) ∨
    (c.is_empty = false ∧ c.is_fish = false ∧ c.is_shark = true) := by
  cases c <;> decide

theorem Content.is_fish_iff (c : Content) :
    c.is_fish = true ↔ c = Content.Fish ∨ c = Content.NewFish := by
  cases c <;> decide

theorem Content.is_shark_iff (c : Content) :
    c.is_shark = true ↔
      c = Content.Shark ∨ c = Content.NewShark ∨ c = Content.FedShark := by
  cases c <;> decide

theorem Content.is_empty_iff (c : Content) :
    c.is_empty = true ↔ c = Content.Empty := by
  cases c <;> decide

/-! ### Geometry lemmas -/

/-- A position is inside the `[0, W) × [0, H)` grid. -/
def inRange (W H : Nat) (p : Point) : Prop :=
  0 ≤ p.x ∧ p.x < (W : Int) ∧ 0 ≤ p.y ∧ p.y < (H : Int)

instance (W H : Nat) (p : Point) : Decidable (inRange W H p) := by
  unfold inRange; infer_instance

theorem nudge_into_range_bounds {x m : Int} (hm : 0 < m) (h1 : -m ≤ x)
    (h2 : x < 2 * m) :
    0 ≤ nudge_into_range x m ∧ nudge_into_range x m < m := by
  unfold nudge_into_range
  split
  · omega
  · split <;> omega

theorem nudge_into_range_eq_emod {x m : Int} (hm : 0 < m) (h1 : -m ≤ x)
    (h2 : x < 2 * m) : nudge_into_range x m = x % m := by
  unfold nudge_into_range
  split
  · rename_i h
    have e1 : (x + m) % m = x % m := by
      have := Int.add_mul_emod_self_left (a := x) (b := m) (c := 1)
      simpa using this
    rw [← e1, Int.emod_eq_of_lt (by omega) (by omega)]
  · rename_i h
    split
    · rename_i h'
      have e1 : (x - m) % m = x % m := by
        have := Int.add_mul_emod_self_left (a := x) (b := m) (c := -1)
        simpa using this
      rw [← e1, Int.emod_eq_of_lt (by omega) (by omega)]
    · rename_i h'
      rw [Int.emod_eq_of_lt (by omega) (by omega)]

theorem Point.offset_inRange {W H : Nat} {p : Point} (hp : inRange W H p)
    {d : Int × Int} (hd : d ∈ baseDirections) :
    inRange W H (p.offset W H d.1 d.2) := by
  obtain ⟨h1, h2, h3, h4⟩ := hp
  have hW : (0 : Int) < (W : Int) := by omega
  have hH : (0 : Int) < (H : Int) := by omega
  have hx : ∀ dx : Int, -1 ≤ dx → dx ≤ 1 →
      0 ≤ nudge_into_range (p.x + dx) (W : Int) ∧
      nudge_into_range (p.x + dx) (W : Int) < (W : Int) := by
    intro dx hd1 hd2
    exact nudge_into_range_bounds hW (by omega) (by omega)
  have hy : ∀ dy : Int, -1 ≤ dy → dy ≤ 1 →
      0 ≤ nudge_into_range (p.y + dy) (H : Int) ∧
      nudge_into_range (p.y + dy) (H : Int) < (H : Int) := by
    intro dy hd1 hd2
    exact nudge_into_range_bounds hH (by omega) (by omega)
  fin_cases hd <;>
    exact ⟨(hx _ (by omega) (by omega)).1, (hx _ (by omega) (by omega)).2,
      (hy _ (by omega) (by omega)).1, (hy _ (by omega) (by omega)).2⟩

theorem Board.ix_lt {W H : Nat} {p : Point} (hp : inRange W H p) :
    Board.ix W p < W * H := by
  obtain ⟨h1, h2, h3, h4⟩ := hp
  unfold Board.ix
  have hx : p.x.toNat < W := by omega
  have hy : p.y.toNat < H := by omega
  calc p.y.toNat * W + p.x.toNat < p.y.toNat * W + W := by omega
    _ = (p.y.toNat + 1) * W := by ring
    _ ≤ H * W := Nat.mul_le_mul_right _ (by omega)
    _ = W * H := Nat.mul_comm _ _

theorem Point.from_ix_ix {W H : Nat} {p : Point} (hp : inRange W H p) :
    Point.from_ix W (Board.ix W p) = p := by
  obtain ⟨h1, h2, h3, h4⟩ := hp
  have hx : p.x.toNat < W := by omega
  unfold Point.from_ix Board.ix
  have e1 : (p.y.toNat * W + p.x.toNat) % W = p.x.toNat := by
    rw [Nat.add_comm, Nat.add_mul_mod_self_right]
    exact Nat.mod_eq_of_lt hx
  have e2 : (p.y.toNat * W + p.x.toNat) / W = p.y.toNat := by
    rw [Nat.add_comm, Nat.add_mul_div_right _ _ (by omega : 0 < W),
      Nat.div_eq_of_lt hx]
    omega
  cases p with
  | mk px py =>
    simp only [Point.mk.injEq, e1, e2]
    constructor
    · simpa using Int.toNat_of_nonneg h1
    · simpa using Int.toNat_of_nonneg h3

theorem Board.ix_inj {W H : Nat} {p q : Point} (hp : inRange W H p)
    (hq : inRange W H q) (h : Board.ix W p = Board.ix W q) : p = q := by
  have := Point.from_ix_ix hp
  rw [h, Point.from_ix_ix hq] at this
  exact this.symm

theorem Point.from_ix_inRange {W H : Nat} {ix : Nat} (h : ix < W * H) :
    inRange W H (Point.from_ix W ix) := by
  have hWH : 0 < W * H := Nat.lt_of_le_of_lt (Nat.zero_le _) h
  have hW : 0 < W := by
    rcases Nat.eq_zero_or_pos W with h0 | h0
    · rw [h0] at hWH; simp at hWH
    · exact h0
  unfold inRange Point.from_ix
  simp only
  refine ⟨Int.ofNat_nonneg _, ?_, Int.ofNat_nonneg _, ?_⟩
  · exact_mod_cast Nat.mod_lt _ hW
  · have : ix / W < H := (Nat.div_lt_iff_lt_mul hW).2 (by rw [Nat.mul_comm]; exact h)
    exact_mod_cast this

theorem Board.ix_lt_of_inRange {W H : Nat} {b : Board}
    (hlen : b.data.length = W * H) {p : Point} (hp : inRange W H p) :
    Board.ix W p < b.data.length := by
  rw [hlen]; exact Board.ix_lt hp

/-! ### Board get/set lemmas -/

theorem Board.length_set (W : Nat) (b : Board) (p : Point) (c : Content) :
    (b.set W p c).data.length = b.data.length := by
  unfold Board.set; exact List.length_set ..

theorem Board.get_set_self {W H : Nat} {b : Board} (hlen : b.data.length = W * H)
    {p : Point} (hp : inRange W H p) (c : Content) :
    (b.set W p c).get W p = c := by
  unfold Board.get Board.set
  simp [List.getD_eq_getElem?_getD,
    List.getElem?_set_self (Board.ix_lt_of_inRange hlen hp)]

theorem Board.get_set_ne {W H : Nat} {b : Board} {p q : Point}
    (hp : inRange W H p) (hq : inRange W H q) (hne : p ≠ q) (c : Content) :
    (b.set W p c).get W q = b.get W q := by
  unfold Board.get Board.set
  simp only [List.getD_eq_getElem?_getD]
  rw [List.getElem?_set_ne]
  intro h
  exact hne (Board.ix_inj hp hq h)

theorem Board.get_set_cases (W : Nat) (b : Board) (p q : Point) (c : Content) :
    (b.set W p c).get W q = c ∨ (b.set W p c).get W q = b.get W q := by
  unfold Board.get Board.set
  simp only [List.getD_eq_getElem?_getD, List.getElem?_set]
  split
  · split
    · simp
    · rename_i h1 h2
      right
      rw [List.getElem?_eq_none (by rw [← h1]; omega)]
  · simp

/-! ### Specification of `clear_by_cond` -/

theorem lastToFront_perm {α : Type} (l : List α) : (lastToFront l).Perm l := by
  unfold lastToFront
  cases h : l.getLast? with
  | none =>
    rw [List.getLast?_eq_none_iff.1 h]
  | some a =>
    have hne : l ≠ [] := by
      intro e; rw [e] at h; simp at h
    have ha : l.getLast hne = a := by
      have := List.getLast?_eq_getLast l hne
      rw [h] at this
      exact (Option.some.injEq _ _ ▸ this).symm
    calc (a :: l.dropLast).Perm (l.dropLast ++ [a]) :=
          (List.perm_append_singleton a _).symm
      _ = l := by rw [← ha]; exact List.dropLast_concat_getLast hne

theorem lastToFront_length {α : Type} (l : List α) :
    (lastToFront l).length = l.length := (lastToFront_perm l).length_eq

theorem clearAux_perm {α : Type} (p : α → Bool) :
    ∀ fuel (l : List α), l.length ≤ fuel →
      (clearAux p fuel l).1.Perm (l.filter (fun x => !(p x))) ∧
      (clearAux p fuel l).2.Perm (l.filter p) := by
  intro fuel
  induction fuel with
  | zero =>
    intro l hl
    have : l = [] := List.length_eq_zero.1 (Nat.le_zero.1 hl)
    subst this
    simp [clearAux]
  | succ n ih =>
    intro l hl
    cases l with
    | nil => simp [clearAux]
    | cons x rest =>
      simp only [clearAux]
      by_cases hx : p x
      · rw [if_pos hx]
        have hperm := lastToFront_perm rest
        have hlen : (lastToFront rest).length ≤ n := by
          rw [lastToFront_length]
          simpa using hl
        have hih := ih (lastToFront rest) hlen
        refine ⟨?_, ?_⟩
        · have he : List.filter (fun x => !(p x)) (x :: rest) =
              List.filter (fun x => !(p x)) rest := by
            simp [List.filter_cons, hx]
          rw [he]
          exact hih.1.trans (hperm.filter _)
        · have he : List.filter p (x :: rest) = x :: List.filter p rest := by
            simp [List.filter_cons, hx]
          rw [he]
          exact ((hih.2).trans (hperm.filter p)).cons x
      · rw [if_neg hx]
        have hih := ih rest (by simpa using hl)
        refine ⟨?_, ?_⟩
        · have he : List.filter (fun x => !(p x)) (x :: rest) =
              x :: List.filter (fun x => !(p x)) rest := by
            simp [List.filter_cons, hx]
          rw [he]
          exact hih.1.cons x
        · have he : List.filter p (x :: rest) = List.filter p rest := by
            simp [List.filter_cons, hx]
          rw [he]
          exact hih.2

theorem clear_by_cond_perm {α : Type} (p : α → Bool) (l : List α) :
    (clear_by_cond p l).1.Perm (l.filter (fun x => !(p x))) ∧
    (clear_by_cond p l).2.Perm (l.filter p) :=
  clearAux_perm p l.length l (Nat.le_refl _)

/-! ### The board/entity consistency invariant

`Consistent W H b fms sms` states the spec's board/list consistency for a
board `b`, the multiset `fms` of live fish positions and the multiset `sms`
of live shark positions: every tracked position is in range, an empty-class
cell hosts no entity, a fish-class cell hosts exactly one fish and no shark,
and a shark-class cell hosts exactly one shark and no fish.  This packages
"every live entity's cell matches its species", "every non-`Empty` cell
corresponds to exactly one live entity" and "no two live entities share a
position". -/

/-- Occupancy conditions at a single cell. -/
def cellMatch (W : Nat) (b : Board) (fms sms : Multiset Point) (p : Point) : Prop :=
  ((b.get W p).is_empty = true → fms.count p = 0 ∧ sms.count p = 0) ∧
  ((b.get W p).is_fish = true → fms.count p = 1 ∧ sms.count p = 0) ∧
  ((b.get W p).is_shark = true → sms.count p = 1 ∧ fms.count p = 0)

instance (W : Nat) (b : Board) (fms sms : Multiset Point) (p : Point) :
    Decidable (cellMatch W b fms sms p) := by
  unfold cellMatch; infer_instance

/-- Full board/entity-list consistency. -/
def Consistent (W H : Nat) (b : Board) (fms sms : Multiset Point) : Prop :=
  b.data.length = W * H ∧
  (∀ p ∈ fms, inRange W H p) ∧
  (∀ p ∈ sms, inRange W H p) ∧
  ∀ ix, ix < W * H → cellMatch W b fms sms (Point.from_ix W ix)

instance (W H : Nat) (b : Board) (fms sms : Multiset Point) :
    Decidable (Consistent W H b fms sms) := by
  unfold Consistent; infer_instance

theorem Consistent.cellAt {W H : Nat} {b : Board} {fms sms : Multiset Point}
    (hC : Consistent W H b fms sms) {p : Point} (hp : inRange W H p) :
    cellMatch W b fms sms p := by
  have := hC.2.2.2 (Board.ix W p) (Board.ix_lt hp)
  rwa [Point.from_ix_ix hp] at this

/-- A tracked fish position sits on a fish-class cell, is the only fish
there, and hosts no shark. -/
theorem Consistent.memFish {W H : Nat} {b : Board} {fms sms : Multiset Point}
    (hC : Consistent W H b fms sms) {p : Point} (hp : p ∈ fms) :
    inRange W H p ∧ (b.get W p).is_fish = true ∧
      fms.count p = 1 ∧ sms.count p = 0 := by
  have hr : inRange W H p := hC.2.1 p hp
  have hcm := hC.cellAt hr
  have hcnt : 0 < fms.count p := Multiset.count_pos.2 hp
  rcases Content.class_split (b.get W p) with ⟨he, _, _⟩ | ⟨_, hf, _⟩ | ⟨_, _, hs⟩
  · have := (hcm.1 he).1; omega
  · exact ⟨hr, hf, (hcm.2.1 hf).1, (hcm.2.1 hf).2⟩
  · have := (hcm.2.2 hs).2; omega

/-- A tracked shark position sits on a shark-class cell, is the only shark
there, and hosts no fish. -/
theorem Consistent.memShark {W H : Nat} {b : Board} {fms sms : Multiset Point}
    (hC : Consistent W H b fms sms) {p : Point} (hp : p ∈ sms) :
    inRange W H p ∧ (b.get W p).is_shark = true ∧
      sms.count p = 1 ∧ fms.count p = 0 := by
  have hr : inRange W H p := hC.2.2.1 p hp
  have hcm := hC.cellAt hr
  have hcnt : 0 < sms.count p := Multiset.count_pos.2 hp
  rcases Content.class_split (b.get W p) with ⟨he, _, _⟩ | ⟨_, hf, _⟩ | ⟨_, _, hs⟩
  · have := (hcm.1 he).2; omega
  · have := (hcm.2.1 hf).2; omega
  · exact ⟨hr, hs, (hcm.2.2 hs).1, (hcm.2.2 hs).2⟩

/-! ### Single-cell surgery lemmas for the invariant -/

/-- Moving a fish from its cell onto an empty cell (writing `Empty` at the
old cell and `Fish` at the destination) preserves consistency. -/
theorem Consistent.fish_move {W H : Nat} {b : Board} {fms sms : Multiset Point}
    {start q : Point}
    (hC : Consistent W H b (start ::ₘ fms) sms)
    (hq : inRange W H q) (hqe : (b.get W q).is_empty = true) :
    Consistent W H ((b.set W start Content.Empty).set W q Content.Fish)
      (q ::ₘ fms) sms := by
  obtain ⟨hsr, hsf, hscnt, hssh⟩ := hC.memFish (Multiset.mem_cons_self start fms)
  have hq0 := (hC.cellAt hq).1 hqe
  have hqs : q ≠ start := by
    intro e
    rw [e] at hq0
    omega
  have hfq : fms.count q = 0 := by
    have := hq0.1
    rw [Multiset.count_cons, if_pos rfl] at hscnt
    rw [Multiset.count_cons, if_neg hqs] at this
    omega
  have hfs : fms.count start = 0 := by
    rw [Multiset.count_cons, if_pos rfl] at hscnt
    omega
  have hlen1 : (b.set W start Content.Empty).data.length = W * H := by
    rw [Board.length_set]; exact hC.1
  have hlen2 : ((b.set W start Content.Empty).set W q Content.Fish).data.length
      = W * H := by
    rw [Board.length_set]; exact hlen1
  refine ⟨hlen2, ?_, hC.2.2.1, ?_⟩
  · intro p hp
    rcases Multiset.mem_cons.1 hp with h | h
    · rw [h]; exact hq
    · exact hC.2.1 p (Multiset.mem_cons_of_mem h)
  · intro ix hix
    have hpr : inRange W H (Point.from_ix W ix) := Point.from_ix_inRange hix
    set p := Point.from_ix W ix with hpdef
    by_cases hpq : p = q
    · rw [hpq]
      have hget : ((b.set W start Content.Empty).set W q Content.Fish).get W q
          = Content.Fish := Board.get_set_self hlen1 hq _
      refine ⟨fun he => ?_, fun hf => ?_, fun hs => ?_⟩
      · rw [hget] at he; exact absurd he (by decide)
      · constructor
        · rw [Multiset.count_cons, if_pos rfl, hfq]
        · exact hq0.2
      · rw [hget] at hs; exact absurd hs (by decide)
    · by_cases hps : p = start
      · rw [hps]
        have hget : ((b.set W start Content.Empty).set W q Content.Fish).get W start
            = Content.Empty := by
          rw [Board.get_set_ne hq hsr hqs _]
          exact Board.get_set_self hC.1 hsr _
        refine ⟨fun he => ?_, fun hf => ?_, fun hs => ?_⟩
        · constructor
          · rw [Multiset.count_cons, if_neg (fun e => hqs e.symm), hfs]
          · exact hssh
        · rw [hget] at hf; exact absurd hf (by decide)
        · rw [hget] at hs; exact absurd hs (by decide)
      · have hget : ((b.set W start Content.Empty).set W q Content.Fish).get W p
            = b.get W p := by
          rw [Board.get_set_ne hq hpr (fun e => hpq e.symm) _]
          exact Board.get_set_ne hsr hpr (fun e => hps e.symm) _
        have hcm := hC.cellAt hpr
        have hcnt : (q ::ₘ fms).count p = (start ::ₘ fms).count p := by
          rw [Multiset.count_cons, Multiset.count_cons, if_neg hpq, if_neg hps]
        rw [cellMatch, hget, hcnt]
        exact hcm

/-- Breeding a fish into a just-vacated empty cell (writing `NewFish`)
preserves consistency. -/
theorem Consistent.fill_fish {W H : Nat} {b : Board} {fms sms : Multiset Point}
    {p0 : Point} (hC : Consistent W H b fms sms)
    (hp0 : inRange W H p0) (hpe : (b.get W p0).is_empty = true) :
    Consistent W H (b.set W p0 Content.NewFish) (p0 ::ₘ fms) sms := by
  have h0 := (hC.cellAt hp0).1 hpe
  have hlen : (b.set W p0 Content.NewFish).data.length = W * H := by
    rw [Board.length_set]; exact hC.1
  refine ⟨hlen, ?_, hC.2.2.1, ?_⟩
  · intro p hp
    rcases Multiset.mem_cons.1 hp with h | h
    · rw [h]; exact hp0
    · exact hC.2.1 p h
  · intro ix hix
    have hpr : inRange W H (Point.from_ix W ix) := Point.from_ix_inRange hix
    set p := Point.from_ix W ix with hpdef
    by_cases hpq : p = p0
    · rw [hpq]
      have hget := Board.get_set_self hC.1 hp0 Content.NewFish
      refine ⟨fun he => ?_, fun hf => ?_, fun hs => ?_⟩
      · rw [hget] at he; exact absurd he (by decide)
      · exact ⟨by rw [Multiset.count_cons, if_pos rfl, h0.1], h0.2⟩
      · rw [hget] at hs; exact absurd hs (by decide)
    · have hget := Board.get_set_ne (b := b) hp0 hpr (fun e => hpq e.symm) Content.NewFish
      have hcnt : (p0 ::ₘ fms).count p = fms.count p := by
        rw [Multiset.count_cons, if_neg hpq, Nat.add_zero]
      rw [cellMatch, hget, hcnt]
      exact hC.cellAt hpr

/-- Breeding a shark into a just-vacated empty cell (writing `NewShark`)
preserves consistency. -/
theorem Consistent.fill_shark {W H : Nat} {b : Board} {fms sms : Multiset Point}
    {p0 : Point} (hC : Consistent W H b fms sms)
    (hp0 : inRange W H p0) (hpe : (b.get W p0).is_empty = true) :
    Consistent W H (b.set W p0 Content.NewShark) fms (p0 ::ₘ sms) := by
  have h0 := (hC.cellAt hp0).1 hpe
  have hlen : (b.set W p0 Content.NewShark).data.length = W * H := by
    rw [Board.length_set]; exact hC.1
  refine ⟨hlen, hC.2.1, ?_, ?_⟩
  · intro p hp
    rcases Multiset.mem_cons.1 hp with h | h
    · rw [h]; exact hp0
    · exact hC.2.2.1 p h
  · intro ix hix
    have hpr : inRange W H (Point.from_ix W ix) := Point.from_ix_inRange hix
    set p := Point.from_ix W ix with hpdef
    by_cases hpq : p = p0
    · rw [hpq]
      have hget := Board.get_set_self hC.1 hp0 Content.NewShark
      refine ⟨fun he => ?_, fun hf => ?_, fun hs => ?_⟩
      · rw [hget] at he; exact absurd he (by decide)
      · rw [hget] at hf; exact absurd hf (by decide)
      · exact ⟨by rw [Multiset.count_cons, if_pos rfl, h0.2], h0.1⟩
    · have hget := Board.get_set_ne (b := b) hp0 hpr (fun e => hpq e.symm) Content.NewShark
      have hcnt : (p0 ::ₘ sms).count p = sms.count p := by
        rw [Multiset.count_cons, if_neg hpq, Nat.add_zero]
      rw [cellMatch, hget, hcnt]
      exact hC.cellAt hpr

/-- Moving a shark from its cell onto an empty cell (writing `Empty` at the
old cell and `Shark` at the destination) preserves consistency. -/
theorem Consistent.shark_move {W H : Nat} {b : Board} {fms sms : Multiset Point}
    {start q : Point}
    (hC : Consistent W H b fms (start ::ₘ sms))
    (hq : inRange W H q) (hqe : (b.get W q).is_empty = true) :
    Consistent W H ((b.set W start Content.Empty).set W q Content.Shark)
      fms (q ::ₘ sms) := by
  obtain ⟨hsr, hss, hscnt, hsfm⟩ := hC.memShark (Multiset.mem_cons_self start sms)
  have hq0 := (hC.cellAt hq).1 hqe
  have hqs : q ≠ start := by
    intro e
    rw [e] at hq0
    omega
  have hsq : sms.count q = 0 := by
    have := hq0.2
    rw [Multiset.count_cons, if_neg hqs] at this
    omega
  have hsst : sms.count start = 0 := by
    rw [Multiset.count_cons, if_pos rfl] at hscnt
    omega
  have hlen1 : (b.set W start Content.Empty).data.length = W * H := by
    rw [Board.length_set]; exact hC.1
  have hlen2 : ((b.set W start Content.Empty).set W q Content.Shark).data.length
      = W * H := by
    rw [Board.length_set]; exact hlen1
  refine ⟨hlen2, hC.2.1, ?_, ?_⟩
  · intro p hp
    rcases Multiset.mem_cons.1 hp with h | h
    · rw [h]; exact hq
    · exact hC.2.2.1 p (Multiset.mem_cons_of_mem h)
  · intro ix hix
    have hpr : inRange W H (Point.from_ix W ix) := Point.from_ix_inRange hix
    set p := Point.from_ix W ix with hpdef
    by_cases hpq : p = q
    · rw [hpq]
      have hget : ((b.set W start Content.Empty).set W q Content.Shark).get W q
          = Content.Shark := Board.get_set_self hlen1 hq _
      refine ⟨fun he => ?_, fun hf => ?_, fun hs => ?_⟩
      · rw [hget] at he; exact absurd he (by decide)
      · rw [hget] at hf; exact absurd hf (by decide)
      · constructor
        · rw [Multiset.count_cons, if_pos rfl, hsq]
        · exact hq0.1
    · by_cases hps : p = start
      · rw [hps]
        have hget : ((b.set W start Content.Empty).set W q Content.Shark).get W start
            = Content.Empty := by
          rw [Board.get_set_ne hq hsr hqs _]
          exact Board.get_set_self hC.1 hsr _
        refine ⟨fun he => ?_, fun hf => ?_, fun hs => ?_⟩
        · constructor
          · exact hsfm
          · rw [Multiset.count_cons, if_neg (fun e => hqs e.symm), hsst]
        · rw [hget] at hf; exact absurd hf (by decide)
        · rw [hget] at hs; exact absurd hs (by decide)
      · have hget : ((b.set W start Content.Empty).set W q Content.Shark).get W p
            = b.get W p := by
          rw [Board.get_set_ne hq hpr (fun e => hpq e.symm) _]
          exact Board.get_set_ne hsr hpr (fun e => hps e.symm) _
        have hcnt : (q ::ₘ sms).count p = (start ::ₘ sms).count p := by
          rw [Multiset.count_cons, Multiset.count_cons, if_neg hpq, if_neg hps]
        rw [cellMatch, hget, hcnt]
        exact hC.cellAt hpr

/-- A shark eating the fish on an adjacent fish-class cell (writing `Empty`
at the shark's old cell and `FedShark` at the fish's cell) preserves
consistency once the eaten fish's position is removed from the live-fish
multiset. -/
theorem Consistent.shark_eat {W H : Nat} {b : Board} {fms sms : Multiset Point}
    {start q : Point}
    (hC : Consistent W H b fms (start ::ₘ sms))
    (hq : inRange W H q) (hqf : (b.get W q).is_fish = true) :
    Consistent W H ((b.set W start Content.Empty).set W q Content.FedShark)
      (fms.filter (fun x => x ≠ q)) (q ::ₘ sms) := by
  obtain ⟨hsr, hss, hscnt, hsfm⟩ := hC.memShark (Multiset.mem_cons_self start sms)
  have hqm := (hC.cellAt hq).2.1 hqf
  have hqs : q ≠ start := by
    intro e
    have := hqm.2
    rw [e, Multiset.count_cons, if_pos rfl] at this
    omega
  have hsq : sms.count q = 0 := by
    have := hqm.2
    rw [Multiset.count_cons, if_neg hqs] at this
    omega
  have hsst : sms.count start = 0 := by
    rw [Multiset.count_cons, if_pos rfl] at hscnt
    omega
  have hlen1 : (b.set W start Content.Empty).data.length = W * H := by
    rw [Board.length_set]; exact hC.1
  have hlen2 : ((b.set W start Content.Empty).set W q Content.FedShark).data.length
      = W * H := by
    rw [Board.length_set]; exact hlen1
  refine ⟨hlen2, ?_, ?_, ?_⟩
  · intro p hp
    exact hC.2.1 p (Multiset.mem_filter.1 hp).1
  · intro p hp
    rcases Multiset.mem_cons.1 hp with h | h
    · rw [h]; exact hq
    · exact hC.2.2.1 p (Multiset.mem_cons_of_mem h)
  · intro ix hix
    have hpr : inRange W H (Point.from_ix W ix) := Point.from_ix_inRange hix
    set p := Point.from_ix W ix with hpdef
    by_cases hpq : p = q
    · rw [hpq]
      have hget : ((b.set W start Content.Empty).set W q Content.FedShark).get W q
          = Content.FedShark := Board.get_set_self hlen1 hq _
      refine ⟨fun he => ?_, fun hf => ?_, fun hs => ?_⟩
      · rw [hget] at he; exact absurd he (by decide)
      · rw [hget] at hf; exact absurd hf (by decide)
      · constructor
        · rw [Multiset.count_cons, if_pos rfl, hsq]
        · rw [Multiset.count_filter, if_neg (by simp)]
    · by_cases hps : p = start
      · rw [hps]
        have hget : ((b.set W start Content.Empty).set W q Content.FedShark).get W start
            = Content.Empty := by
          rw [Board.get_set_ne hq hsr hqs _]
          exact Board.get_set_self hC.1 hsr _
        refine ⟨fun he => ?_, fun hf => ?_, fun hs => ?_⟩
        · constructor
          · rw [Multiset.count_filter, if_pos (fun e => hqs e.symm), hsfm]
          · rw [Multiset.count_cons, if_neg (fun e => hqs e.symm), hsst]
        · rw [hget] at hf; exact absurd hf (by decide)
        · rw [hget] at hs; exact absurd hs (by decide)
      · have hget : ((b.set W start Content.Empty).set W q Content.FedShark).get W p
            = b.get W p := by
          rw [Board.get_set_ne hq hpr (fun e => hpq e.symm) _]
          exact Board.get_set_ne hsr hpr (fun e => hps e.symm) _
        have hcntf : (fms.filter (fun x => x ≠ q)).count p = fms.count p := by
          rw [Multiset.count_filter, if_pos hpq]
        have hcnts : (q ::ₘ sms).count p = (start ::ₘ sms).count p := by
          rw [Multiset.count_cons, Multiset.count_cons, if_neg hpq, if_neg hps]
        rw [cellMatch, hget, hcntf, hcnts]
        exact hC.cellAt hpr

/-- Removing a (starved) shark and emptying its cell preserves
consistency. -/
theorem Consistent.remove_shark {W H : Nat} {b : Board} {fms sms : Multiset Point}
    {p0 : Point} (hC : Consistent W H b fms (p0 ::ₘ sms)) :
    Consistent W H (b.set W p0 Content.Empty) fms sms := by
  obtain ⟨hr, hs, hcnt, hf⟩ := hC.memShark (Multiset.mem_cons_self p0 sms)
  have hs0 : sms.count p0 = 0 := by
    rw [Multiset.count_cons, if_pos rfl] at hcnt
    omega
  refine ⟨by rw [Board.length_set]; exact hC.1, hC.2.1,
    fun p hp => hC.2.2.1 p (Multiset.mem_cons_of_mem hp), ?_⟩
  intro ix hix
  have hpr : inRange W H (Point.from_ix W ix) := Point.from_ix_inRange hix
  set p := Point.from_ix W ix with hpdef
  by_cases hpq : p = p0
  · rw [hpq]
    have hget := Board.get_set_self hC.1 hr Content.Empty
    refine ⟨fun he => ⟨hf, hs0⟩, fun hfi => ?_, fun hsh => ?_⟩
    · rw [hget] at hfi; exact absurd hfi (by decide)
    · rw [hget] at hsh; exact absurd hsh (by decide)
  · have hget := Board.get_set_ne (b := b) hr hpr (fun e => hpq e.symm) Content.Empty
    have hcnt' : sms.count p = (p0 ::ₘ sms).count p := by
      rw [Multiset.count_cons, if_neg hpq, Nat.add_zero]
    rw [cellMatch, hget, hcnt']
    exact hC.cellAt hpr

/-! ### Per-entity step lemmas -/

theorem Content.not_empty_and_fish {c : Content} (h1 : c.is_empty = true)
    (h2 : c.is_fish = true) : False := by
  rw [Content.is_empty_iff] at h1
  subst h1
  exact absurd h2 (by decide)

theorem Content.not_empty_and_shark {c : Content} (h1 : c.is_empty = true)
    (h2 : c.is_shark = true) : False := by
  rw [Content.is_empty_iff] at h1
  subst h1
  exact absurd h2 (by decide)

theorem Content.not_fish_and_shark {c : Content} (h1 : c.is_fish = true)
    (h2 : c.is_shark = true) : False := by
  rw [Content.is_fish_iff] at h1
  rcases h1 with h1 | h1 <;> subst h1 <;> exact absurd h2 (by decide)

/-- Positions contributed by an optional newborn fish. -/
def optFishPos (o : Option Fish) : Multiset Point := ↑(o.toList.map Fish.pos)

/-- Positions contributed by an optional newborn shark. -/
def optSharkPos (o : Option Shark) : Multiset Point := ↑(o.toList.map Shark.pos)

/-- The `// Move.` block preserves consistency; when the fish did move, its
old cell is left `Empty`; the reproduction timer is untouched by the move
itself. -/
theorem fishMove_spec {W H : Nat} {b : Board} {fms sms : Multiset Point}
    {f : Fish} {dirs : List (Int × Int)}
    (hC : Consistent W H b (f.pos ::ₘ fms) sms)
    (hd : ∀ d ∈ dirs, d ∈ baseDirections) :
    Consistent W H (fishMove W H b f dirs).1
        ((fishMove W H b f dirs).2.pos ::ₘ fms) sms ∧
      ((fishMove W H b f dirs).2.pos ≠ f.pos →
        (((fishMove W H b f dirs).1).get W f.pos).is_empty = true) ∧
      (fishMove W H b f dirs).2.repro_time = f.repro_time := by
  have hstart := hC.memFish (Multiset.mem_cons_self f.pos fms)
  unfold fishMove
  split
  · rename_i d hfind
    have hP := List.find?_some hfind
    have hdmem := hd d (List.mem_of_find?_eq_some hfind)
    have hq : inRange W H (f.pos.offset W H d.1 d.2) :=
      Point.offset_inRange hstart.1 hdmem
    have hqs : f.pos.offset W H d.1 d.2 ≠ f.pos := by
      intro e
      rw [e] at hP
      exact Content.not_empty_and_fish hP hstart.2.1
    refine ⟨hC.fish_move hq hP, fun _ => ?_, rfl⟩
    rw [Board.get_set_ne hq hstart.1 hqs _, Board.get_set_self hC.1 hstart.1 _]
    rfl
  · exact ⟨hC, fun h => absurd rfl h, rfl⟩

/-- One fish step preserves consistency, with the stepped fish's new
position and the optional newborn's position replacing the fish's old
position in the live-fish multiset. -/
theorem fishStep_spec {W H τ : Nat} {b : Board} {fms sms : Multiset Point}
    {f : Fish} {dirs : List (Int × Int)}
    (hC : Consistent W H b (f.pos ::ₘ fms) sms)
    (hd : ∀ d ∈ dirs, d ∈ baseDirections) :
    Consistent W H (fishStep W H τ b f dirs).1
      ((fishStep W H τ b f dirs).2.1.pos ::ₘ
        (optFishPos (fishStep W H τ b f dirs).2.2 + fms)) sms := by
  have hstart := hC.memFish (Multiset.mem_cons_self f.pos fms)
  have hm := fishMove_spec hC hd
  unfold fishStep
  dsimp only
  split
  · rename_i hmoved
    split
    · rename_i hbreed
      dsimp only [optFishPos, Fish.new, Option.toList, List.map, Multiset.coe_singleton]
      rw [Multiset.singleton_add, Multiset.cons_swap]
      exact (hm.1).fill_fish hstart.1 (hm.2.1 (fun e => hmoved e.symm))
    · rename_i hbreed
      dsimp only [optFishPos, Option.toList, List.map, Multiset.coe_nil]
      rw [zero_add]
      exact hm.1
  · rename_i hmoved
    dsimp only [optFishPos, Option.toList, List.map, Multiset.coe_nil]
    rw [zero_add]
    exact hm.1

theorem Multiset.filter_not_mem_singleton (fms : Multiset Point) (q : Point) :
    Multiset.filter (fun x => x ∉ [q]) fms
      = Multiset.filter (fun x => x ≠ q) fms := by
  apply Multiset.filter_congr
  intro x hx
  simp

theorem Multiset.filter_not_mem_nil (fms : Multiset Point) :
    Multiset.filter (fun x => x ∉ ([] : List Point)) fms = fms := by
  rw [Multiset.filter_eq_self]
  intro x hx
  simp

/-- Unfolding equation for a successful `// Eat.` scan. -/
theorem sharkEat_eq_some {W H : Nat} {b : Board} {s : Shark}
    {dirs : List (Int × Int)} {d : Int × Int}
    (hfind : dirs.find?
      (fun d => (b.get W (s.pos.offset W H d.1 d.2)).is_fish) = some d) :
    sharkEat W H b s dirs =
      (((b.set W s.pos Content.Empty).set W (s.pos.offset W H d.1 d.2)
          Content.FedShark),
        { s with pos := s.pos.offset W H d.1 d.2, starve := 0 },
        some (s.pos.offset W H d.1 d.2)) := by
  unfold sharkEat
  rw [hfind]

/-- Unfolding equation for a failed `// Eat.` scan. -/
theorem sharkEat_eq_none {W H : Nat} {b : Board} {s : Shark}
    {dirs : List (Int × Int)}
    (hfind : dirs.find?
      (fun d => (b.get W (s.pos.offset W H d.1 d.2)).is_fish) = none) :
    sharkEat W H b s dirs = (b, s, none) := by
  unfold sharkEat
  rw [hfind]

/-- Unfolding equation for a successful shark `// Move` scan. -/
theorem sharkMove_eq_some {W H : Nat} {b : Board} {s : Shark}
    {dirs : List (Int × Int)} {d : Int × Int}
    (hfind : dirs.find?
      (fun d => (b.get W (s.pos.offset W H d.1 d.2)).is_empty) = some d) :
    sharkMove W H b s dirs =
      (((b.set W s.pos Content.Empty).set W (s.pos.offset W H d.1 d.2)
          Content.Shark),
        { s with pos := s.pos.offset W H d.1 d.2 }) := by
  unfold sharkMove
  rw [hfind]

/-- Unfolding equation for a failed shark `// Move` scan. -/
theorem sharkMove_eq_none {W H : Nat} {b : Board} {s : Shark}
    {dirs : List (Int × Int)}
    (hfind : dirs.find?
      (fun d => (b.get W (s.pos.offset W H d.1 d.2)).is_empty) = none) :
    sharkMove W H b s dirs = (b, s) := by
  unfold sharkMove
  rw [hfind]

/-- One shark step preserves consistency: the stepped shark's new position
and the optional newborn's position replace the shark's old position in the
live-shark multiset, and the optionally eaten position leaves the live-fish
multiset. -/
theorem sharkStep_spec {W H σ : Nat} {b : Board} {fms sms : Multiset Point}
    {s : Shark} {dirs : List (Int × Int)}
    (hC : Consistent W H b fms (s.pos ::ₘ sms))
    (hd : ∀ d ∈ dirs, d ∈ baseDirections) :
    Consistent W H (sharkStep W H σ b s dirs).1
      (Multiset.filter (fun x => x ∉ (sharkStep W H σ b s dirs).2.2.2.toList) fms)
      ((sharkStep W H σ b s dirs).2.1.pos ::ₘ
        (optSharkPos (sharkStep W H σ b s dirs).2.2.1 + sms)) := by
  have hss := hC.memShark (Multiset.mem_cons_self s.pos sms)
  unfold sharkStep
  cases hfind : dirs.find?
      (fun d => (b.get W (s.pos.offset W H d.1 d.2)).is_fish) with
  | some d =>
    have hP := List.find?_some hfind
    have hdmem := hd d (List.mem_of_find?_eq_some hfind)
    have hq : inRange W H (s.pos.offset W H d.1 d.2) :=
      Point.offset_inRange hss.1 hdmem
    have hqs : s.pos.offset W H d.1 d.2 ≠ s.pos := by
      intro e
      rw [e] at hP
      exact Content.not_fish_and_shark hP hss.2.1
    have hE := hC.shark_eat hq hP
    rw [sharkEat_eq_some hfind]
    dsimp only
    rw [if_neg (show ¬(s.pos = s.pos.offset W H d.1 d.2) from
      fun e => hqs e.symm)]
    dsimp only
    rw [if_pos (show s.pos ≠ s.pos.offset W H d.1 d.2 from
      fun e => hqs e.symm)]
    split
    · rename_i hbreed
      have hempty : (((b.set W s.pos Content.Empty).set W
          (s.pos.offset W H d.1 d.2) Content.FedShark).get W s.pos).is_empty
          = true := by
        rw [Board.get_set_ne hq hss.1 hqs _, Board.get_set_self hC.1 hss.1 _]
        rfl
      have hF := hE.fill_shark hss.1 hempty
      dsimp only [optSharkPos, Shark.new, Option.toList, List.map,
        Multiset.coe_singleton]
      rw [Multiset.filter_not_mem_singleton, Multiset.singleton_add,
        Multiset.cons_swap]
      exact hF
    · rename_i hbreed
      dsimp only [optSharkPos, Option.toList, List.map, Multiset.coe_nil]
      rw [Multiset.filter_not_mem_singleton, zero_add]
      exact hE
  | none =>
    rw [sharkEat_eq_none hfind]
    dsimp only
    rw [if_pos rfl]
    cases hfind2 : dirs.find?
        (fun d => (b.get W (s.pos.offset W H d.1 d.2)).is_empty) with
    | some d =>
      have hP := List.find?_some hfind2
      have hdmem := hd d (List.mem_of_find?_eq_some hfind2)
      have hq : inRange W H (s.pos.offset W H d.1 d.2) :=
        Point.offset_inRange hss.1 hdmem
      have hqs : s.pos.offset W H d.1 d.2 ≠ s.pos := by
        intro e
        rw [e] at hP
        exact Content.not_empty_and_shark hP hss.2.1
      have hM := hC.shark_move hq hP
      rw [sharkMove_eq_some hfind2]
      dsimp only
      rw [if_pos (show s.pos ≠ s.pos.offset W H d.1 d.2 from
        fun e => hqs e.symm)]
      split
      · rename_i hbreed
        have hempty : (((b.set W s.pos Content.Empty).set W
            (s.pos.offset W H d.1 d.2) Content.Shark).get W s.pos).is_empty
            = true := by
          rw [Board.get_set_ne hq hss.1 hqs _, Board.get_set_self hC.1 hss.1 _]
          rfl
        have hF := hM.fill_shark hss.1 hempty
        dsimp only [optSharkPos, Shark.new, Option.toList, List.map,
          Multiset.coe_singleton]
        rw [Multiset.filter_not_mem_nil, Multiset.singleton_add,
          Multiset.cons_swap]
        exact hF
      · rename_i hbreed
        dsimp only [optSharkPos, Option.toList, List.map, Multiset.coe_nil]
        rw [Multiset.filter_not_mem_nil, zero_add]
        exact hM
    | none =>
      rw [sharkMove_eq_none hfind2]
      dsimp only
      rw [if_neg (show ¬(s.pos ≠ s.pos) from fun h => h rfl)]
      dsimp only [optSharkPos, Option.toList, List.map, Multiset.coe_nil]
      rw [Multiset.filter_not_mem_nil, zero_add]
      exact hC

/-! ### Phase-level invariant preservation -/

theorem Rng.next_valid {r : Rng} (h : r.Valid) :
    (∀ d ∈ r.next.1, d ∈ baseDirections) ∧ r.next.2.Valid := by
  cases r with
  | mk shuffles =>
    cases shuffles with
    | nil =>
      refine ⟨fun d hd => hd, ?_⟩
      intro ds hds
      exact absurd hds (by simp [Rng.next])
    | cons ds rest =>
      refine ⟨h ds (List.mem_cons_self ds rest), ?_⟩
      intro ds' hds' d hd
      exact h ds' (List.mem_cons_of_mem _ hds') d hd

theorem Multiset.filter_not_mem_append (fms : Multiset Point) (a b : List Point) :
    Multiset.filter (fun x => x ∉ (a ++ b)) fms =
      Multiset.filter (fun x => x ∉ b) (Multiset.filter (fun x => x ∉ a) fms) := by
  rw [Multiset.filter_filter]
  apply Multiset.filter_congr
  intro x hx
  simp [List.mem_append]
  tauto

/-- The fish phase preserves consistency: afterwards the live fish are the
stepped fish plus the newborns (relative to any fixed multiset `others` of
fish positions not processed by this fold). -/
theorem fishPhase_spec {W H τ : Nat} {sms : Multiset Point} :
    ∀ (todo : List Fish) (b : Board) (rng : Rng) (others : Multiset Point),
      Consistent W H b (others + ↑(todo.map Fish.pos)) sms → rng.Valid →
      Consistent W H (fishPhaseAux W H τ b rng todo).1
        (others + ↑(((fishPhaseAux W H τ b rng todo).2.2.1 ++
          (fishPhaseAux W H τ b rng todo).2.2.2).map Fish.pos)) sms ∧
      (fishPhaseAux W H τ b rng todo).2.1.Valid := by
  intro todo
  induction todo with
  | nil =>
    intro b rng others hC hV
    exact ⟨hC, hV⟩
  | cons f rest ih =>
    intro b rng others hC hV
    obtain ⟨hd1, hV1⟩ := Rng.next_valid hV
    have hC' : Consistent W H b (f.pos ::ₘ (others + ↑(rest.map Fish.pos))) sms := by
      have he : others + ↑((f :: rest).map Fish.pos)
          = f.pos ::ₘ (others + ↑(rest.map Fish.pos)) := by
        simp only [List.map, ← Multiset.cons_coe, Multiset.add_cons]
      rwa [he] at hC
    have hS := fishStep_spec (τ := τ) hC' hd1
    have hS' : Consistent W H (fishStep W H τ b f rng.next.1).1
        (((fishStep W H τ b f rng.next.1).2.1.pos ::ₘ
          (optFishPos (fishStep W H τ b f rng.next.1).2.2 + others)) +
          ↑(rest.map Fish.pos)) sms := by
      have he : ((fishStep W H τ b f rng.next.1).2.1.pos ::ₘ
            (optFishPos (fishStep W H τ b f rng.next.1).2.2 + others)) +
            ↑(rest.map Fish.pos)
          = (fishStep W H τ b f rng.next.1).2.1.pos ::ₘ
            (optFishPos (fishStep W H τ b f rng.next.1).2.2 +
              (others + ↑(rest.map Fish.pos))) := by
        simp only [← Multiset.singleton_add]
        abel
      rwa [he]
    have hI := ih (fishStep W H τ b f rng.next.1).1 rng.next.2
      ((fishStep W H τ b f rng.next.1).2.1.pos ::ₘ
        (optFishPos (fishStep W H τ b f rng.next.1).2.2 + others)) hS' hV1
    simp only [fishPhaseAux]
    refine ⟨?_, hI.2⟩
    have he : others +
        ↑((((fishStep W H τ b f rng.next.1).2.1 ::
            (fishPhaseAux W H τ (fishStep W H τ b f rng.next.1).1 rng.next.2 rest).2.2.1) ++
          ((fishStep W H τ b f rng.next.1).2.2.toList ++
            (fishPhaseAux W H τ (fishStep W H τ b f rng.next.1).1 rng.next.2 rest).2.2.2)).map
          Fish.pos)
        = ((fishStep W H τ b f rng.next.1).2.1.pos ::ₘ
            (optFishPos (fishStep W H τ b f rng.next.1).2.2 + others)) +
          ↑(((fishPhaseAux W H τ (fishStep W H τ b f rng.next.1).1 rng.next.2 rest).2.2.1 ++
            (fishPhaseAux W H τ (fishStep W H τ b f rng.next.1).1 rng.next.2 rest).2.2.2).map
            Fish.pos) := by
      simp only [List.append_eq, List.map_append, List.map, List.map_cons,
        ← Multiset.cons_coe, ← Multiset.coe_add, Multiset.add_cons,
        Multiset.cons_add, optFishPos, ← Multiset.singleton_add]
      abel
    rw [he]
    exact hI.1

/-- The shark phase preserves consistency: afterwards the live sharks are
the stepped sharks plus the newborns, and the fish whose positions were
eaten this phase drop out of the live-fish multiset. -/
theorem sharkPhase_spec {W H σ : Nat} :
    ∀ (todo : List Shark) (b : Board) (rng : Rng) (fms others : Multiset Point),
      Consistent W H b fms (others + ↑(todo.map Shark.pos)) → rng.Valid →
      Consistent W H (sharkPhaseAux W H σ b rng todo).1
        (Multiset.filter (fun x => x ∉ (sharkPhaseAux W H σ b rng todo).2.2.2.2) fms)
        (others + ↑(((sharkPhaseAux W H σ b rng todo).2.2.1 ++
          (sharkPhaseAux W H σ b rng todo).2.2.2.1).map Shark.pos)) ∧
      (sharkPhaseAux W H σ b rng todo).2.1.Valid := by
  intro todo
  induction todo with
  | nil =>
    intro b rng fms others hC hV
    simp only [sharkPhaseAux]
    rw [Multiset.filter_not_mem_nil]
    refine ⟨?_, hV⟩
    simpa using hC
  | cons s rest ih =>
    intro b rng fms others hC hV
    obtain ⟨hd1, hV1⟩ := Rng.next_valid hV
    have hC' : Consistent W H b fms
        (s.pos ::ₘ (others + ↑(rest.map Shark.pos))) := by
      have he : others + ↑((s :: rest).map Shark.pos)
          = s.pos ::ₘ (others + ↑(rest.map Shark.pos)) := by
        simp only [List.map, ← Multiset.cons_coe, Multiset.add_cons]
      rwa [he] at hC
    have hS := sharkStep_spec (σ := σ) hC' hd1
    have hS' : Consistent W H (sharkStep W H σ b s rng.next.1).1
        (Multiset.filter
          (fun x => x ∉ (sharkStep W H σ b s rng.next.1).2.2.2.toList) fms)
        (((sharkStep W H σ b s rng.next.1).2.1.pos ::ₘ
          (optSharkPos (sharkStep W H σ b s rng.next.1).2.2.1 + others)) +
          ↑(rest.map Shark.pos)) := by
      have he : ((sharkStep W H σ b s rng.next.1).2.1.pos ::ₘ
            (optSharkPos (sharkStep W H σ b s rng.next.1).2.2.1 + others)) +
            ↑(rest.map Shark.pos)
          = (sharkStep W H σ b s rng.next.1).2.1.pos ::ₘ
            (optSharkPos (sharkStep W H σ b s rng.next.1).2.2.1 +
              (others + ↑(rest.map Shark.pos))) := by
        simp only [← Multiset.singleton_add]
        abel
      rwa [he]
    have hI := ih (sharkStep W H σ b s rng.next.1).1 rng.next.2
      (Multiset.filter
        (fun x => x ∉ (sharkStep W H σ b s rng.next.1).2.2.2.toList) fms)
      ((sharkStep W H σ b s rng.next.1).2.1.pos ::ₘ
        (optSharkPos (sharkStep W H σ b s rng.next.1).2.2.1 + others)) hS' hV1
    simp only [sharkPhaseAux]
    refine ⟨?_, hI.2⟩
    rw [Multiset.filter_not_mem_append]
    have he : others +
        ↑((((sharkStep W H σ b s rng.next.1).2.1 ::
            (sharkPhaseAux W H σ (sharkStep W H σ b s rng.next.1).1
              rng.next.2 rest).2.2.1) ++
          ((sharkStep W H σ b s rng.next.1).2.2.1.toList ++
            (sharkPhaseAux W H σ (sharkStep W H σ b s rng.next.1).1
              rng.next.2 rest).2.2.2.1)).map Shark.pos)
        = ((sharkStep W H σ b s rng.next.1).2.1.pos ::ₘ
            (optSharkPos (sharkStep W H σ b s rng.next.1).2.2.1 + others)) +
          ↑(((sharkPhaseAux W H σ (sharkStep W H σ b s rng.next.1).1
              rng.next.2 rest).2.2.1 ++
            (sharkPhaseAux W H σ (sharkStep W H σ b s rng.next.1).1
              rng.next.2 rest).2.2.2.1).map Shark.pos) := by
      simp only [List.append_eq, List.map_append, List.map, List.map_cons,
        ← Multiset.cons_coe, ← Multiset.coe_add, Multiset.add_cons,
        Multiset.cons_add, optSharkPos, ← Multiset.singleton_add]
      abel
    rw [he]
    exact hI.1

/-! ### Compaction lemmas -/

/-- The fish kept by the `// Clear eaten fish.` pass are, as a multiset of
positions, exactly the fish whose position was not eaten. -/
theorem clear_fish_pos (l : List Fish) (eaten : List Point) :
    (↑(((clear_by_cond (fun f => decide (f.pos ∈ eaten)) l).1).map Fish.pos) :
        Multiset Point)
      = Multiset.filter (fun x => x ∉ eaten)
          (↑(l.map Fish.pos) : Multiset Point) := by
  have hp := (clear_by_cond_perm (fun f => decide (f.pos ∈ eaten)) l).1
  have h1 : (↑(((clear_by_cond (fun f => decide (f.pos ∈ eaten)) l).1).map
        Fish.pos) : Multiset Point)
      = ↑((l.filter (fun f => !decide (f.pos ∈ eaten))).map Fish.pos) :=
    Multiset.coe_eq_coe.2 (hp.map _)
  rw [h1, Multiset.filter_coe, List.filter_map]
  have he : l.filter (fun f => !decide (f.pos ∈ eaten))
      = l.filter ((fun b => decide (b ∉ eaten)) ∘ Fish.pos) := by
    apply List.filter_congr
    intro f hf
    simp [Function.comp, decide_not]
  rw [he]

/-- The sharks kept plus removed by `clear_by_cond` carry, together, the
same multiset of positions as the input list. -/
theorem clear_shark_pos (l : List Shark) (pred : Shark → Bool) :
    (↑((clear_by_cond pred l).1.map Shark.pos) : Multiset Point) +
      ↑((clear_by_cond pred l).2.map Shark.pos)
      = ↑(l.map Shark.pos) := by
  obtain ⟨h1, h2⟩ := clear_by_cond_perm pred l
  rw [Multiset.coe_add, Multiset.coe_eq_coe, ← List.map_append]
  refine List.Perm.map _ ?_
  exact ((h1.append h2).trans
    (List.perm_append_comm.trans (List.filter_append_perm pred l)))

/-- Emptying the cells of removed sharks, one by one, preserves consistency
with the removed sharks' positions dropped from the live-shark multiset. -/
theorem Consistent.clear_removed {W H : Nat} :
    ∀ (removed : List Shark) (b : Board) (fms keep : Multiset Point),
      Consistent W H b fms (keep + ↑(removed.map Shark.pos)) →
      Consistent W H
        (removed.foldl (fun b s => b.set W s.pos Content.Empty) b) fms keep := by
  intro removed
  induction removed with
  | nil =>
    intro b fms keep hC
    simpa using hC
  | cons r rest ih =>
    intro b fms keep hC
    have hC' : Consistent W H b fms
        (r.pos ::ₘ (keep + ↑(rest.map Shark.pos))) := by
      have he : keep + ↑((r :: rest).map Shark.pos)
          = r.pos ::ₘ (keep + ↑(rest.map Shark.pos)) := by
        simp only [List.map, ← Multiset.cons_coe, Multiset.add_cons]
      rwa [he] at hC
    have hR := hC'.remove_shark
    exact ih (b.set W r.pos Content.Empty) fms keep hR

/-! ### Whole-tick invariant preservation -/

/-- Board/entity consistency of a whole `World`. -/
def WorldConsistent (W H : Nat) (w : World) : Prop :=
  Consistent W H w.occupied ↑(w.fishes.map Fish.pos) ↑(w.sharks.map Shark.pos)

instance (W H : Nat) (w : World) : Decidable (WorldConsistent W H w) := by
  unfold WorldConsistent; infer_instance

/-- `World::update` preserves board/entity consistency, and leaves the
shuffle stream valid. -/
theorem update_preserves_consistent {W H : Nat} {w : World} {rng : Rng}
    (hC : WorldConsistent W H w) (hV : rng.Valid) :
    WorldConsistent W H (World.update W H w rng).1 ∧
      (World.update W H w rng).2.Valid := by
  have hF := fishPhase_spec (τ := w.fish_repro_time) w.fishes w.occupied rng 0
    (by simpa using hC) hV
  have hS := sharkPhase_spec (σ := w.shark_repro_time) w.sharks
    (fishPhaseAux W H w.fish_repro_time w.occupied rng w.fishes).1
    (fishPhaseAux W H w.fish_repro_time w.occupied rng w.fishes).2.1
    (↑(((fishPhaseAux W H w.fish_repro_time w.occupied rng w.fishes).2.2.1 ++
        (fishPhaseAux W H w.fish_repro_time w.occupied rng w.fishes).2.2.2).map
        Fish.pos))
    0 (by simpa using hF.1) hF.2
  rw [zero_add] at hS
  unfold World.update
  dsimp only
  refine ⟨?_, hS.2⟩
  unfold WorldConsistent
  dsimp only
  rw [clear_fish_pos]
  apply Consistent.clear_removed
  rw [clear_shark_pos]
  exact hS.1

instance (r : Rng) : Decidable r.Valid := by
  unfold Rng.Valid; infer_instance

/-- The spec's four consistency bullets, stated directly on a `World`:
every live fish's cell has fish-presence, every live shark's cell has
shark-presence, every non-`Empty` cell corresponds to exactly one live
entity, and no two live entities occupy the same position. -/
def SpecConsistent (W H : Nat) (w : World) : Prop :=
  (∀ f ∈ w.fishes, (w.occupied.get W f.pos).is_fish = true) ∧
  (∀ s ∈ w.sharks, (w.occupied.get W s.pos).is_shark = true) ∧
  (∀ ix, ix < W * H →
    ¬((w.occupied.get W (Point.from_ix W ix)).is_empty = true) →
    List.count (Point.from_ix W ix)
      (w.fishes.map Fish.pos ++ w.sharks.map Shark.pos) = 1) ∧
  (w.fishes.map Fish.pos ++ w.sharks.map Shark.pos).Nodup

instance (W H : Nat) (w : World) : Decidable (SpecConsistent W H w) := by
  unfold SpecConsistent; infer_instance

/-- The multiset-level invariant implies the spec's bullets. -/
theorem WorldConsistent.spec {W H : Nat} {w : World}
    (hC : WorldConsistent W H w) : SpecConsistent W H w := by
  refine ⟨?_, ?_, ?_, ?_⟩
  · intro f hf
    have : f.pos ∈ (↑(w.fishes.map Fish.pos) : Multiset Point) :=
      Multiset.mem_coe.2 (List.mem_map_of_mem Fish.pos hf)
    exact (hC.memFish this).2.1
  · intro s hs
    have : s.pos ∈ (↑(w.sharks.map Shark.pos) : Multiset Point) :=
      Multiset.mem_coe.2 (List.mem_map_of_mem Shark.pos hs)
    exact (hC.memShark this).2.1
  · intro ix hix hne
    have hcm := hC.2.2.2 ix hix
    rw [List.count_append, ← Multiset.coe_count, ← Multiset.coe_count]
    rcases Content.class_split
        (w.occupied.get W (Point.from_ix W ix)) with
      ⟨he, _, _⟩ | ⟨_, hf, _⟩ | ⟨_, _, hs⟩
    · exact absurd he hne
    · rw [(hcm.2.1 hf).1, (hcm.2.1 hf).2]
    · rw [(hcm.2.2 hs).1, (hcm.2.2 hs).2]
  · rw [List.nodup_iff_count_le_one]
    intro p
    by_cases hp : p ∈ (w.fishes.map Fish.pos ++ w.sharks.map Shark.pos)
    · have hpr : inRange W H p := by
        rcases List.mem_append.1 hp with h | h
        · exact hC.2.1 p (Multiset.mem_coe.2 h)
        · exact hC.2.2.1 p (Multiset.mem_coe.2 h)
      have hcm := hC.cellAt hpr
      rw [List.count_append, ← Multiset.coe_count, ← Multiset.coe_count]
      rcases Content.class_split (w.occupied.get W p) with
        ⟨he, _, _⟩ | ⟨_, hf, _⟩ | ⟨_, _, hs⟩
      · rw [(hcm.1 he).1, (hcm.1 he).2]
        omega
      · rw [(hcm.2.1 hf).1, (hcm.2.1 hf).2]
      · rw [(hcm.2.2 hs).1, (hcm.2.2 hs).2]
    · rw [List.count_eq_zero.2 hp]
      omega

/-- Iterated ticks preserve consistency and stream validity. -/
theorem ticks_preserves_consistent {W H : Nat} (n : Nat) :
    ∀ (w : World) (rng : Rng), WorldConsistent W H w → rng.Valid →
      WorldConsistent W H (World.ticks W H n w rng).1 ∧
        (World.ticks W H n w rng).2.Valid := by
  induction n with
  | zero =>
    intro w rng hC hV
    exact ⟨hC, hV⟩
  | succ n ih =>
    intro w rng hC hV
    have h1 := update_preserves_consistent hC hV
    simpa only [World.ticks] using
      ih (World.update W H w rng).1 (World.update W H w rng).2 h1.1 h1.2

/-- Claim C3: at every tick boundary (after `World::update` returns,
starting from any state satisfying the board/list invariant, for any number
of ticks), the board and both entity lists are mutually consistent: every
live fish's cell has fish-presence, every live shark's cell has
shark-presence, every non-`Empty` cell corresponds to exactly one live
entity at that position, and no two live entities occupy the same
position. -/
theorem claim_C3_consistency {W H : Nat} {w : World} {rng : Rng}
    (hC : WorldConsistent W H w) (hV : rng.Valid) (n : Nat) :
    WorldConsistent W H (World.ticks W H n w rng).1 ∧
      SpecConsistent W H (World.ticks W H n w rng).1 := by
  have h := ticks_preserves_consistent n w rng hC hV
  exact ⟨h.1, h.1.spec⟩

/-- Witness for C3 at a concrete world: a 3×1 grid with one fish and one
shark placed by `World::new`, run for two ticks. -/
theorem claim_C3_consistency_witness :
    WorldConsistent 3 1 (World.new 3 1 1 1 3 3 5 [1, 0] [1] [1]) ∧
      Rng.Valid ⟨[]⟩ ∧
      (WorldConsistent 3 1
          (World.ticks 3 1 2 (World.new 3 1 1 1 3 3 5 [1, 0] [1] [1]) ⟨[]⟩).1 ∧
        SpecConsistent 3 1
          (World.ticks 3 1 2 (World.new 3 1 1 1 3 3 5 [1, 0] [1] [1]) ⟨[]⟩).1) :=
  ⟨by decide, by decide, claim_C3_consistency (by decide) (by decide) 2⟩

/-! ### The eaten set admits no duplicates (one eat per cell per tick) -/

theorem Board.get_set_self_cases (W : Nat) (b : Board) (p : Point) (c : Content) :
    (b.set W p c).get W p = c ∨ (b.set W p c).get W p = Content.Empty := by
  unfold Board.get Board.set
  simp only [List.getD_eq_getElem?_getD, List.getElem?_set]
  split
  · split
    · simp
    · right
      rfl
  · rename_i h
    exact absurd trivial h

/-- Writing any non-fish-class value anywhere keeps a non-fish-class cell
non-fish-class. -/
theorem Board.get_set_nonfish {W : Nat} {b : Board} {q : Point} {c : Content}
    (hc : c.is_fish = false) {p : Point}
    (hp : (Board.get W b p).is_fish = false) :
    ((b.set W q c).get W p).is_fish = false := by
  rcases Board.get_set_cases W b q p c with h | h <;> rw [h]
  · exact hc
  · exact hp

/-- The shark `// Move` block writes only `Empty` and `Shark`, so it keeps
every non-fish-class cell non-fish-class. -/
theorem sharkMove_keeps_nonfish {W H : Nat} {b : Board} {s : Shark}
    {dirs : List (Int × Int)} {p : Point}
    (hp : (Board.get W b p).is_fish = false) :
    ((sharkMove W H b s dirs).1.get W p).is_fish = false := by
  unfold sharkMove
  split
  · exact Board.get_set_nonfish (by decide)
      (Board.get_set_nonfish (by decide) hp)
  · exact hp

/-- Under consistency, one shark step never writes a fish-class value:
non-fish-class cells stay non-fish-class, and the eaten position (if any)
was fish-class before the step and is non-fish-class (`FedShark`) after
it. -/
theorem sharkStep_eaten_facts {W H σ : Nat} {b : Board}
    {fms sms : Multiset Point} {s : Shark} {dirs : List (Int × Int)}
    (hC : Consistent W H b fms (s.pos ::ₘ sms))
    (hd : ∀ d ∈ dirs, d ∈ baseDirections) :
    (∀ p, (Board.get W b p).is_fish = false →
      ((sharkStep W H σ b s dirs).1.get W p).is_fish = false) ∧
    (∀ q, (sharkStep W H σ b s dirs).2.2.2 = some q →
      (Board.get W b q).is_fish = true ∧
      ((sharkStep W H σ b s dirs).1.get W q).is_fish = false) := by
  have hss := hC.memShark (Multiset.mem_cons_self s.pos sms)
  unfold sharkStep
  cases hfind : dirs.find?
      (fun d => (b.get W (s.pos.offset W H d.1 d.2)).is_fish) with
  | some d =>
    have hP := List.find?_some hfind
    have hdmem := hd d (List.mem_of_find?_eq_some hfind)
    have hq : inRange W H (s.pos.offset W H d.1 d.2) :=
      Point.offset_inRange hss.1 hdmem
    have hqs : s.pos.offset W H d.1 d.2 ≠ s.pos := by
      intro e
      rw [e] at hP
      exact Content.not_fish_and_shark hP hss.2.1
    have hlen1 : (b.set W s.pos Content.Empty).data.length = W * H := by
      rw [Board.length_set]; exact hC.1
    have hb1q : (((b.set W s.pos Content.Empty).set W
        (s.pos.offset W H d.1 d.2) Content.FedShark).get W
        (s.pos.offset W H d.1 d.2)).is_fish = false := by
      rw [Board.get_set_self hlen1 hq _]
      rfl
    rw [sharkEat_eq_some hfind]
    dsimp only
    rw [if_neg (show ¬(s.pos = s.pos.offset W H d.1 d.2) from
      fun e => hqs e.symm)]
    dsimp only
    rw [if_pos (show s.pos ≠ s.pos.offset W H d.1 d.2 from
      fun e => hqs e.symm)]
    split
    · constructor
      · intro p hp
        exact Board.get_set_nonfish (by decide)
          (Board.get_set_nonfish (by decide)
            (Board.get_set_nonfish (by decide) hp))
      · intro q hqe
        have he : q = s.pos.offset W H d.1 d.2 :=
          (Option.some.injEq _ _ ▸ hqe).symm
        subst he
        exact ⟨hP, Board.get_set_nonfish (by decide) hb1q⟩
    · constructor
      · intro p hp
        exact Board.get_set_nonfish (by decide)
          (Board.get_set_nonfish (by decide) hp)
      · intro q hqe
        have he : q = s.pos.offset W H d.1 d.2 :=
          (Option.some.injEq _ _ ▸ hqe).symm
        subst he
        exact ⟨hP, hb1q⟩
  | none =>
    rw [sharkEat_eq_none hfind]
    dsimp only
    rw [if_pos rfl]
    cases hfind2 : dirs.find?
        (fun d => (b.get W (s.pos.offset W H d.1 d.2)).is_empty) with
    | some d =>
      have hP := List.find?_some hfind2
      have hqs : s.pos.offset W H d.1 d.2 ≠ s.pos := by
        intro e
        rw [e] at hP
        exact Content.not_empty_and_shark hP hss.2.1
      rw [sharkMove_eq_some hfind2]
      dsimp only
      rw [if_pos (show s.pos ≠ s.pos.offset W H d.1 d.2 from
        fun e => hqs e.symm)]
      split
      · refine ⟨fun p hp => ?_, fun q hqe => by cases hqe⟩
        exact Board.get_set_nonfish (by decide)
          (Board.get_set_nonfish (by decide)
            (Board.get_set_nonfish (by decide) hp))
      · refine ⟨fun p hp => ?_, fun q hqe => by cases hqe⟩
        exact Board.get_set_nonfish (by decide)
          (Board.get_set_nonfish (by decide) hp)
    | none =>
      rw [sharkMove_eq_none hfind2]
      dsimp only
      rw [if_neg (show ¬(s.pos ≠ s.pos) from fun h => h rfl)]
      exact ⟨fun p hp => hp, fun q hqe => by cases hqe⟩

/-- Within one (consistent) shark phase, a position whose cell is not
fish-class is never recorded as eaten, and the record of eaten positions
contains no duplicates. -/
theorem sharkPhase_eaten {W H σ : Nat} :
    ∀ (todo : List Shark) (b : Board) (rng : Rng) (fms others : Multiset Point),
      Consistent W H b fms (others + ↑(todo.map Shark.pos)) → rng.Valid →
      (∀ p, (Board.get W b p).is_fish = false →
        p ∉ (sharkPhaseAux W H σ b rng todo).2.2.2.2) ∧
      (sharkPhaseAux W H σ b rng todo).2.2.2.2.Nodup := by
  intro todo
  induction todo with
  | nil =>
    intro b rng fms others hC hV
    simp [sharkPhaseAux]
  | cons s rest ih =>
    intro b rng fms others hC hV
    obtain ⟨hd1, hV1⟩ := Rng.next_valid hV
    have hC' : Consistent W H b fms
        (s.pos ::ₘ (others + ↑(rest.map Shark.pos))) := by
      have he : others + ↑((s :: rest).map Shark.pos)
          = s.pos ::ₘ (others + ↑(rest.map Shark.pos)) := by
        simp only [List.map, ← Multiset.cons_coe, Multiset.add_cons]
      rwa [he] at hC
    have hfacts := sharkStep_eaten_facts (σ := σ) hC' hd1
    have hS := sharkStep_spec (σ := σ) hC' hd1
    have hS' : Consistent W H (sharkStep W H σ b s rng.next.1).1
        (Multiset.filter
          (fun x => x ∉ (sharkStep W H σ b s rng.next.1).2.2.2.toList) fms)
        (((sharkStep W H σ b s rng.next.1).2.1.pos ::ₘ
          (optSharkPos (sharkStep W H σ b s rng.next.1).2.2.1 + others)) +
          ↑(rest.map Shark.pos)) := by
      have he : ((sharkStep W H σ b s rng.next.1).2.1.pos ::ₘ
            (optSharkPos (sharkStep W H σ b s rng.next.1).2.2.1 + others)) +
            ↑(rest.map Shark.pos)
          = (sharkStep W H σ b s rng.next.1).2.1.pos ::ₘ
            (optSharkPos (sharkStep W H σ b s rng.next.1).2.2.1 +
              (others + ↑(rest.map Shark.pos))) := by
        simp only [← Multiset.singleton_add]
        abel
      rwa [he]
    have hI := ih (sharkStep W H σ b s rng.next.1).1 rng.next.2
      (Multiset.filter
        (fun x => x ∉ (sharkStep W H σ b s rng.next.1).2.2.2.toList) fms)
      ((sharkStep W H σ b s rng.next.1).2.1.pos ::ₘ
        (optSharkPos (sharkStep W H σ b s rng.next.1).2.2.1 + others)) hS' hV1
    simp only [sharkPhaseAux]
    constructor
    · intro p hp hmem
      rcases List.mem_append.1 hmem with h1 | h2
      · cases he1 : (sharkStep W H σ b s rng.next.1).2.2.2 with
        | none =>
          rw [he1] at h1
          cases h1
        | some q =>
          rw [he1] at h1
          have hpq : p = q := by simpa using h1
          subst hpq
          have hfish := (hfacts.2 p he1).1
          rw [hp] at hfish
          cases hfish
      · exact hI.1 p (hfacts.1 p hp) h2
    · cases he1 : (sharkStep W H σ b s rng.next.1).2.2.2 with
      | none =>
        simpa using hI.2
      | some q =>
        have : (Option.some q).toList ++
            (sharkPhaseAux W H σ (sharkStep W H σ b s rng.next.1).1
              rng.next.2 rest).2.2.2.2
            = q :: (sharkPhaseAux W H σ (sharkStep W H σ b s rng.next.1).1
              rng.next.2 rest).2.2.2.2 := rfl
        rw [this, List.nodup_cons]
        exact ⟨hI.1 q (hfacts.2 q he1).2, hI.2⟩

/-- Claim C6: within a single shark phase no fish cell is eaten twice.
Once a shark eats a fish the cell is overwritten with `FedShark`, which
fails the fish-presence test, so no later shark in the same phase can eat
it again: the list of positions inserted into the eaten-this-tick set has
no duplicates. -/
theorem claim_C6_no_double_eat {W H σ : Nat} {b : Board} {rng : Rng}
    {fms : Multiset Point} {sharks : List Shark}
    (hC : Consistent W H b fms ↑(sharks.map Shark.pos)) (hV : rng.Valid) :
    (sharkPhaseAux W H σ b rng sharks).2.2.2.2.Nodup :=
  (sharkPhase_eaten sharks b rng fms 0 (by simpa using hC) hV).2

/-- Witness for C6: the shark phase of a concrete consistent 3×1 world
with one shark next to one fish. -/
theorem claim_C6_no_double_eat_witness :
    Consistent 3 1 (World.new 3 1 1 1 3 3 5 [1, 0] [1] [1]).occupied
        ↑(((World.new 3 1 1 1 3 3 5 [1, 0] [1] [1]).fishes).map Fish.pos)
        ↑(((World.new 3 1 1 1 3 3 5 [1, 0] [1] [1]).sharks).map Shark.pos) ∧
      Rng.Valid ⟨[]⟩ ∧
      (sharkPhaseAux 3 1 3 (World.new 3 1 1 1 3 3 5 [1, 0] [1] [1]).occupied
        ⟨[]⟩ (World.new 3 1 1 1 3 3 5 [1, 0] [1] [1]).sharks).2.2.2.2.Nodup :=
  ⟨by decide, by decide,
    @claim_C6_no_double_eat 3 1 3 (World.new 3 1 1 1 3 3 5 [1, 0] [1] [1]).occupied
      ⟨[]⟩ ↑(((World.new 3 1 1 1 3 3 5 [1, 0] [1] [1]).fishes).map Fish.pos)
      (World.new 3 1 1 1 3 3 5 [1, 0] [1] [1]).sharks (by decide) (by decide)⟩

/-! ### Geometry claim -/

/-- Claim C9: for every position inside the grid and every unit direction
used by the engine, `Point::offset` returns the true-modulo wrap
`((x+dx) mod W, (y+dy) mod H)` with non-negative representatives, and the
result is again inside the grid — so `Board::get`/`set` never receive an
out-of-range coordinate from the engine. -/
theorem claim_C9_offset_wraps {W H : Nat} {p : Point} {d : Int × Int}
    (hp : inRange W H p) (hd : d ∈ baseDirections) :
    p.offset W H d.1 d.2
        = ⟨(p.x + d.1) % (W : Int), (p.y + d.2) % (H : Int)⟩ ∧
      inRange W H (p.offset W H d.1 d.2) := by
  obtain ⟨h1, h2, h3, h4⟩ := hp
  have hW : (0 : Int) < (W : Int) := by omega
  have hH : (0 : Int) < (H : Int) := by omega
  refine ⟨?_, Point.offset_inRange ⟨h1, h2, h3, h4⟩ hd⟩
  simp only [Point.offset, Point.mk.injEq]
  fin_cases hd <;>
    exact ⟨nudge_into_range_eq_emod hW (by omega) (by omega),
      nudge_into_range_eq_emod hH (by omega) (by omega)⟩

/-- Witness for C9 at the wrapping corner `(0,0)` of a 3×2 grid with the
left-move `(-1,0)`. -/
theorem claim_C9_offset_wraps_witness :
    inRange 3 2 ⟨0, 0⟩ ∧ ((-1, 0) : Int × Int) ∈ baseDirections ∧
      (Point.offset 3 2 ⟨0, 0⟩ (-1) 0
          = ⟨((0 : Int) + (-1)) % (3 : Int), ((0 : Int) + 0) % (2 : Int)⟩ ∧
        inRange 3 2 (Point.offset 3 2 ⟨0, 0⟩ (-1) 0)) :=
  ⟨by decide, by decide,
    @claim_C9_offset_wraps 3 2 ⟨0, 0⟩ ((-1, 0) : Int × Int)
      (by decide) (by decide)⟩

/-! ### Breeding bookkeeping -/

/-- Unfolding equation for a successful fish `// Move` scan. -/
theorem fishMove_eq_some {W H : Nat} {b : Board} {f : Fish}
    {dirs : List (Int × Int)} {d : Int × Int}
    (hfind : dirs.find?
      (fun d => (b.get W (f.pos.offset W H d.1 d.2)).is_empty) = some d) :
    fishMove W H b f dirs =
      (((b.set W f.pos Content.Empty).set W (f.pos.offset W H d.1 d.2)
          Content.Fish),
        { f with pos := f.pos.offset W H d.1 d.2 }) := by
  unfold fishMove
  rw [hfind]

/-- Unfolding equation for a failed fish `// Move` scan. -/
theorem fishMove_eq_none {W H : Nat} {b : Board} {f : Fish}
    {dirs : List (Int × Int)}
    (hfind : dirs.find?
      (fun d => (b.get W (f.pos.offset W H d.1 d.2)).is_empty) = none) :
    fishMove W H b f dirs = (b, f) := by
  unfold fishMove
  rw [hfind]

/-- A fish spawns a newborn exactly when it moved and its incremented
(wrapping) reproduction timer reached the fish threshold; the newborn sits
at the vacated start cell with timer `0`. -/
theorem fishStep_newborn_eq {W H τ : Nat} (b : Board) (f : Fish)
    (dirs : List (Int × Int)) :
    (fishStep W H τ b f dirs).2.2
      = (if (fishStep W H τ b f dirs).2.1.pos ≠ f.pos ∧
            τ ≤ (f.repro_time + 1) % 256
        then some (Fish.new f.pos) else none) := by
  unfold fishStep
  cases hfind : dirs.find?
      (fun d => (b.get W (f.pos.offset W H d.1 d.2)).is_empty) with
  | some d =>
    rw [fishMove_eq_some hfind]
    dsimp only
    by_cases hpq : f.pos ≠ f.pos.offset W H d.1 d.2
    · rw [if_pos hpq]
      by_cases hr : τ ≤ (f.repro_time + 1) % 256
      · rw [if_pos hr]
        dsimp only
        rw [if_pos ⟨fun e => hpq e.symm, hr⟩]
      · rw [if_neg hr]
        dsimp only
        rw [if_neg (fun hc => hr hc.2)]
    · rw [if_neg hpq]
      dsimp only
      rw [if_neg (fun hc => hc.1 (not_ne_iff.1 hpq).symm)]
  | none =>
    rw [fishMove_eq_none hfind]
    dsimp only
    rw [if_neg (fun h => h rfl)]
    dsimp only
    rw [if_neg (fun hc => hc.1 rfl)]

/-- A (consistently placed) shark spawns a newborn exactly when it moved
(by eating or relocating) and its incremented (wrapping) reproduction
timer equals the shark threshold exactly; the newborn sits at the vacated
start cell with both timers `0`. -/
theorem sharkStep_newborn_eq {W H σ : Nat} {b : Board}
    {fms sms : Multiset Point} {s : Shark} {dirs : List (Int × Int)}
    (hC : Consistent W H b fms (s.pos ::ₘ sms))
    (hd : ∀ d ∈ dirs, d ∈ baseDirections) :
    (sharkStep W H σ b s dirs).2.2.1
      = (if (sharkStep W H σ b s dirs).2.1.pos ≠ s.pos ∧
            (s.repro_time + 1) % 256 = σ
        then some (Shark.new s.pos) else none) := by
  have hss := hC.memShark (Multiset.mem_cons_self s.pos sms)
  unfold sharkStep
  cases hfind : dirs.find?
      (fun d => (b.get W (s.pos.offset W H d.1 d.2)).is_fish) with
  | some d =>
    have hP := List.find?_some hfind
    have hqs : s.pos.offset W H d.1 d.2 ≠ s.pos := by
      intro e
      rw [e] at hP
      exact Content.not_fish_and_shark hP hss.2.1
    rw [sharkEat_eq_some hfind]
    dsimp only
    rw [if_neg (show ¬(s.pos = s.pos.offset W H d.1 d.2) from
      fun e => hqs e.symm)]
    dsimp only
    rw [if_pos (show s.pos ≠ s.pos.offset W H d.1 d.2 from
      fun e => hqs e.symm)]
    by_cases hr : (s.repro_time + 1) % 256 = σ
    · rw [if_pos hr]
      dsimp only
      rw [if_pos ⟨hqs, hr⟩]
    · rw [if_neg hr]
      dsimp only
      rw [if_neg (fun hc => hr hc.2)]
  | none =>
    rw [sharkEat_eq_none hfind]
    dsimp only
    rw [if_pos rfl]
    cases hfind2 : dirs.find?
        (fun d => (b.get W (s.pos.offset W H d.1 d.2)).is_empty) with
    | some d =>
      have hP := List.find?_some hfind2
      have hqs : s.pos.offset W H d.1 d.2 ≠ s.pos := by
        intro e
        rw [e] at hP
        exact Content.not_empty_and_shark hP hss.2.1
      rw [sharkMove_eq_some hfind2]
      dsimp only
      rw [if_pos (show s.pos ≠ s.pos.offset W H d.1 d.2 from
        fun e => hqs e.symm)]
      by_cases hr : (s.repro_time + 1) % 256 = σ
      · rw [if_pos hr]
        dsimp only
        rw [if_pos ⟨hqs, hr⟩]
      · rw [if_neg hr]
        dsimp only
        rw [if_neg (fun hc => hr hc.2)]
    | none =>
      rw [sharkMove_eq_none hfind2]
      dsimp only
      rw [if_neg (show ¬(s.pos ≠ s.pos) from fun h => h rfl)]
      dsimp only
      rw [if_neg (fun hc => hc.1 rfl)]

/-- Claim C4: in every tick a shark that moved (by eating or relocating)
breeds exactly when its incremented reproduction timer equals the shark
threshold, while a fish that moved breeds exactly when its incremented
timer is at least the fish threshold; the offspring appears at the parent's
vacated start position with timer(s) `0` (`Fish.new` / `Shark.new`).
Timers increment with the `u8` wrap of the source (`% 256`). -/
theorem claim_C4_breeding {W H τ σ : Nat} {b bs : Board} {f : Fish}
    {s : Shark} {fms sms : Multiset Point} {dirsf dirss : List (Int × Int)}
    (hC : Consistent W H bs fms (s.pos ::ₘ sms))
    (hd : ∀ d ∈ dirss, d ∈ baseDirections) :
    ((fishStep W H τ b f dirsf).2.2
        = (if (fishStep W H τ b f dirsf).2.1.pos ≠ f.pos ∧
              τ ≤ (f.repro_time + 1) % 256
          then some (Fish.new f.pos) else none)) ∧
    ((sharkStep W H σ bs s dirss).2.2.1
        = (if (sharkStep W H σ bs s dirss).2.1.pos ≠ s.pos ∧
              (s.repro_time + 1) % 256 = σ
          then some (Shark.new s.pos) else none)) :=
  ⟨fishStep_newborn_eq b f dirsf, sharkStep_newborn_eq hC hd⟩

/-- Witness for C4: a 3×1 grid with a lone shark at `(0,0)` (timer 1,
threshold 2) and a fish record at `(1,0)` (timer 1, threshold 2). -/
theorem claim_C4_breeding_witness :
    Consistent 3 1 (Board.mk [Content.Shark, Content.Empty, Content.Empty])
        0 ((⟨⟨0, 0⟩, 1, 0⟩ : Shark).pos ::ₘ 0) ∧
      (∀ d ∈ baseDirections, d ∈ baseDirections) ∧
      (((fishStep 3 1 2 (Board.mk [Content.Shark, Content.Empty, Content.Empty])
            ⟨⟨1, 0⟩, 1⟩ baseDirections).2.2
          = (if (fishStep 3 1 2
                (Board.mk [Content.Shark, Content.Empty, Content.Empty])
                ⟨⟨1, 0⟩, 1⟩ baseDirections).2.1.pos ≠ (⟨⟨1, 0⟩, 1⟩ : Fish).pos ∧
                2 ≤ ((⟨⟨1, 0⟩, 1⟩ : Fish).repro_time + 1) % 256
            then some (Fish.new (⟨⟨1, 0⟩, 1⟩ : Fish).pos) else none)) ∧
        ((sharkStep 3 1 2 (Board.mk [Content.Shark, Content.Empty, Content.Empty])
            ⟨⟨0, 0⟩, 1, 0⟩ baseDirections).2.2.1
          = (if (sharkStep 3 1 2
                (Board.mk [Content.Shark, Content.Empty, Content.Empty])
                ⟨⟨0, 0⟩, 1, 0⟩ baseDirections).2.1.pos ≠ (⟨⟨0, 0⟩, 1, 0⟩ : Shark).pos ∧
                ((⟨⟨0, 0⟩, 1, 0⟩ : Shark).repro_time + 1) % 256 = 2
            then some (Shark.new (⟨⟨0, 0⟩, 1, 0⟩ : Shark).pos) else none))) :=
  ⟨by decide, by decide,
    @claim_C4_breeding 3 1 2 2
      (Board.mk [Content.Shark, Content.Empty, Content.Empty])
      (Board.mk [Content.Shark, Content.Empty, Content.Empty])
      ⟨⟨1, 0⟩, 1⟩ ⟨⟨0, 0⟩, 1, 0⟩ 0 0 baseDirections baseDirections
      (by decide) (by decide)⟩

/-! ### Trapped entities change nothing -/

/-- A fish with no empty-testing neighbour leaves the board, itself and the
fish list untouched. -/
theorem fishStep_stuck {W H τ : Nat} {b : Board} {f : Fish}
    {dirs : List (Int × Int)}
    (hfind : dirs.find?
      (fun d => (b.get W (f.pos.offset W H d.1 d.2)).is_empty) = none) :
    fishStep W H τ b f dirs = (b, f, none) := by
  unfold fishStep
  rw [fishMove_eq_none hfind]
  dsimp only
  rw [if_neg (fun h => h rfl)]

/-- A shark with no fish-testing neighbour and no empty-testing neighbour
leaves the board unchanged; only its starvation timer advances. -/
theorem sharkStep_stuck {W H σ : Nat} {b : Board} {s : Shark}
    {dirs : List (Int × Int)}
    (h1 : dirs.find?
      (fun d => (b.get W (s.pos.offset W H d.1 d.2)).is_fish) = none)
    (h2 : dirs.find?
      (fun d => (b.get W (s.pos.offset W H d.1 d.2)).is_empty) = none) :
    sharkStep W H σ b s dirs
      = (b, { s with starve := (s.starve + 1) % 256 }, none, none) := by
  unfold sharkStep
  rw [sharkEat_eq_none h1]
  dsimp only
  rw [if_pos rfl, sharkMove_eq_none h2]
  dsimp only
  rw [if_neg (fun h => h rfl)]

/-- Claim C8: an entity that fails to move this tick — no scanned adjacent
cell passes its destination test — keeps its reproduction timer unchanged
and spawns no offspring. -/
theorem claim_C8_no_move_no_breeding {W H τ σ : Nat} {b bs : Board}
    {f : Fish} {s : Shark} {dirsf dirss : List (Int × Int)}
    (hf : dirsf.find?
      (fun d => (b.get W (f.pos.offset W H d.1 d.2)).is_empty) = none)
    (he : dirss.find?
      (fun d => (bs.get W (s.pos.offset W H d.1 d.2)).is_fish) = none)
    (hm : dirss.find?
      (fun d => (bs.get W (s.pos.offset W H d.1 d.2)).is_empty) = none) :
    ((fishStep W H τ b f dirsf).2.1.pos = f.pos ∧
      (fishStep W H τ b f dirsf).2.1.repro_time = f.repro_time ∧
      (fishStep W H τ b f dirsf).2.2 = none) ∧
    ((sharkStep W H σ bs s dirss).2.1.pos = s.pos ∧
      (sharkStep W H σ bs s dirss).2.1.repro_time = s.repro_time ∧
      (sharkStep W H σ bs s dirss).2.2.1 = none) := by
  rw [fishStep_stuck hf, sharkStep_stuck he hm]
  exact ⟨⟨rfl, rfl, rfl⟩, rfl, rfl, rfl⟩

/-- Witness for C8: a 1×1 torus, where every neighbour of the single cell
is the cell itself, so its occupant can never move. -/
theorem claim_C8_no_move_no_breeding_witness :
    (baseDirections.find? (fun d => ((Board.mk [Content.Fish]).get 1
        ((⟨⟨0, 0⟩, 1⟩ : Fish).pos.offset 1 1 d.1 d.2)).is_empty) = none) ∧
    (baseDirections.find? (fun d => ((Board.mk [Content.Shark]).get 1
        ((⟨⟨0, 0⟩, 1, 0⟩ : Shark).pos.offset 1 1 d.1 d.2)).is_fish) = none) ∧
    (baseDirections.find? (fun d => ((Board.mk [Content.Shark]).get 1
        ((⟨⟨0, 0⟩, 1, 0⟩ : Shark).pos.offset 1 1 d.1 d.2)).is_empty) = none) ∧
    (((fishStep 1 1 2 (Board.mk [Content.Fish]) ⟨⟨0, 0⟩, 1⟩
        baseDirections).2.1.pos = (⟨⟨0, 0⟩, 1⟩ : Fish).pos ∧
      (fishStep 1 1 2 (Board.mk [Content.Fish]) ⟨⟨0, 0⟩, 1⟩
        baseDirections).2.1.repro_time = (⟨⟨0, 0⟩, 1⟩ : Fish).repro_time ∧
      (fishStep 1 1 2 (Board.mk [Content.Fish]) ⟨⟨0, 0⟩, 1⟩
        baseDirections).2.2 = none) ∧
     ((sharkStep 1 1 2 (Board.mk [Content.Shark]) ⟨⟨0, 0⟩, 1, 0⟩
        baseDirections).2.1.pos = (⟨⟨0, 0⟩, 1, 0⟩ : Shark).pos ∧
      (sharkStep 1 1 2 (Board.mk [Content.Shark]) ⟨⟨0, 0⟩, 1, 0⟩
        baseDirections).2.1.repro_time = (⟨⟨0, 0⟩, 1, 0⟩ : Shark).repro_time ∧
      (sharkStep 1 1 2 (Board.mk [Content.Shark]) ⟨⟨0, 0⟩, 1, 0⟩
        baseDirections).2.2.1 = none)) :=
  ⟨by decide, by decide, by decide,
    @claim_C8_no_move_no_breeding 1 1 2 2 (Board.mk [Content.Fish])
      (Board.mk [Content.Shark]) ⟨⟨0, 0⟩, 1⟩ ⟨⟨0, 0⟩, 1, 0⟩
      baseDirections baseDirections (by decide) (by decide) (by decide)⟩

/-! ### Starvation bookkeeping -/

/-- A (consistently placed) shark ends its step with starvation timer `1`
(it ate: reset to `0`, then the unconditional increment) or
`(starve + 1) % 256` (it did not eat: just the unconditional increment). -/
theorem sharkStep_starve {W H σ : Nat} {b : Board} {fms sms : Multiset Point}
    {s : Shark} {dirs : List (Int × Int)}
    (hC : Consistent W H b fms (s.pos ::ₘ sms))
    (hd : ∀ d ∈ dirs, d ∈ baseDirections) :
    (sharkStep W H σ b s dirs).2.1.starve = 1 ∨
      (sharkStep W H σ b s dirs).2.1.starve = (s.starve + 1) % 256 := by
  have hss := hC.memShark (Multiset.mem_cons_self s.pos sms)
  unfold sharkStep
  cases hfind : dirs.find?
      (fun d => (b.get W (s.pos.offset W H d.1 d.2)).is_fish) with
  | some d =>
    have hP := List.find?_some hfind
    have hqs : s.pos.offset W H d.1 d.2 ≠ s.pos := by
      intro e
      rw [e] at hP
      exact Content.not_fish_and_shark hP hss.2.1
    rw [sharkEat_eq_some hfind]
    dsimp only
    rw [if_neg (show ¬(s.pos = s.pos.offset W H d.1 d.2) from
      fun e => hqs e.symm)]
    dsimp only
    rw [if_pos (show s.pos ≠ s.pos.offset W H d.1 d.2 from
      fun e => hqs e.symm)]
    split
    · left; rfl
    · left; rfl
  | none =>
    rw [sharkEat_eq_none hfind]
    dsimp only
    rw [if_pos rfl]
    cases hfind2 : dirs.find?
        (fun d => (b.get W (s.pos.offset W H d.1 d.2)).is_empty) with
    | some d =>
      have hP := List.find?_some hfind2
      have hqs : s.pos.offset W H d.1 d.2 ≠ s.pos := by
        intro e
        rw [e] at hP
        exact Content.not_empty_and_shark hP hss.2.1
      rw [sharkMove_eq_some hfind2]
      dsimp only
      rw [if_pos (show s.pos ≠ s.pos.offset W H d.1 d.2 from
        fun e => hqs e.symm)]
      split
      · right; rfl
      · right; rfl
    | none =>
      rw [sharkMove_eq_none hfind2]
      dsimp only
      rw [if_neg (show ¬(s.pos ≠ s.pos) from fun h => h rfl)]
      right
      rfl

/-- Per-index starvation accounting across one (consistent) shark phase:
the stepped shark list has one entry per input shark, each entry's
starvation timer was incremented exactly once (after an eat-reset to `0`
if the shark ate), and appended newborns carry timer `0`. -/
theorem sharkPhase_starve {W H σ : Nat} :
    ∀ (todo : List Shark) (b : Board) (rng : Rng) (fms others : Multiset Point),
      Consistent W H b fms (others + ↑(todo.map Shark.pos)) → rng.Valid →
      (sharkPhaseAux W H σ b rng todo).2.2.1.length = todo.length ∧
      (∀ i, i < todo.length →
        ((sharkPhaseAux W H σ b rng todo).2.2.1.getD i ⟨⟨0, 0⟩, 0, 0⟩).starve = 1 ∨
        ((sharkPhaseAux W H σ b rng todo).2.2.1.getD i ⟨⟨0, 0⟩, 0, 0⟩).starve
          = ((todo.getD i ⟨⟨0, 0⟩, 0, 0⟩).starve + 1) % 256) ∧
      (∀ nb ∈ (sharkPhaseAux W H σ b rng todo).2.2.2.1,
        nb.starve = 0 ∧ nb.repro_time = 0) := by
  intro todo
  induction todo with
  | nil =>
    intro b rng fms others hC hV
    refine ⟨rfl, fun i hi => absurd hi (by simp), fun nb hnb => absurd hnb (by simp [sharkPhaseAux])⟩
  | cons s rest ih =>
    intro b rng fms others hC hV
    obtain ⟨hd1, hV1⟩ := Rng.next_valid hV
    have hC' : Consistent W H b fms
        (s.pos ::ₘ (others + ↑(rest.map Shark.pos))) := by
      have he : others + ↑((s :: rest).map Shark.pos)
          = s.pos ::ₘ (others + ↑(rest.map Shark.pos)) := by
        simp only [List.map, ← Multiset.cons_coe, Multiset.add_cons]
      rwa [he] at hC
    have hstep := sharkStep_starve (σ := σ) hC' hd1
    have hS := sharkStep_spec (σ := σ) hC' hd1
    have hS' : Consistent W H (sharkStep W H σ b s rng.next.1).1
        (Multiset.filter
          (fun x => x ∉ (sharkStep W H σ b s rng.next.1).2.2.2.toList) fms)
        (((sharkStep W H σ b s rng.next.1).2.1.pos ::ₘ
          (optSharkPos (sharkStep W H σ b s rng.next.1).2.2.1 + others)) +
          ↑(rest.map Shark.pos)) := by
      have he : ((sharkStep W H σ b s rng.next.1).2.1.pos ::ₘ
            (optSharkPos (sharkStep W H σ b s rng.next.1).2.2.1 + others)) +
            ↑(rest.map Shark.pos)
          = (sharkStep W H σ b s rng.next.1).2.1.pos ::ₘ
            (optSharkPos (sharkStep W H σ b s rng.next.1).2.2.1 +
              (others + ↑(rest.map Shark.pos))) := by
        simp only [← Multiset.singleton_add]
        abel
      rwa [he]
    have hI := ih (sharkStep W H σ b s rng.next.1).1 rng.next.2
      (Multiset.filter
        (fun x => x ∉ (sharkStep W H σ b s rng.next.1).2.2.2.toList) fms)
      ((sharkStep W H σ b s rng.next.1).2.1.pos ::ₘ
        (optSharkPos (sharkStep W H σ b s rng.next.1).2.2.1 + others)) hS' hV1
    simp only [sharkPhaseAux]
    refine ⟨by simpa using hI.1, ?_, ?_⟩
    · intro i hi
      cases i with
      | zero =>
        simpa using hstep
      | succ j =>
        have hj : j < rest.length := by simpa using hi
        simpa using hI.2.1 j hj
    · intro nb hnb
      rcases List.mem_append.1 hnb with h1 | h2
      · cases hob : (sharkStep W H σ b s rng.next.1).2.2.1 with
        | none =>
          rw [hob] at h1
          cases h1
        | some nb0 =>
          rw [hob] at h1
          have hnbeq : nb = nb0 := by simpa using h1
          subst hnbeq
          have heq := sharkStep_newborn_eq (σ := σ) hC' hd1
          rw [hob] at heq
          split at heq
          · have he2 : nb = Shark.new s.pos := by simpa using heq
            rw [he2]
            exact ⟨rfl, rfl⟩
          · exact Option.noConfusion heq
      · exact hI.2.2 nb h2

/-- Setting a cell to `Empty` makes it read `Empty`. -/
theorem Board.get_set_empty (W : Nat) (b : Board) (p : Point) :
    ((b.set W p Content.Empty).get W p) = Content.Empty := by
  rcases Board.get_set_self_cases W b p Content.Empty with h | h <;> exact h

/-- Setting any cell to `Empty` keeps an already-`Empty` cell `Empty`. -/
theorem Board.get_set_keeps_empty {W : Nat} {b : Board} {q p : Point}
    (hp : Board.get W b p = Content.Empty) :
    ((b.set W q Content.Empty).get W p) = Content.Empty := by
  rcases Board.get_set_cases W b q p Content.Empty with h | h
  · exact h
  · rw [h]; exact hp

theorem foldl_clear_keeps_empty {W : Nat} :
    ∀ (removed : List Shark) (b : Board) (p : Point),
      Board.get W b p = Content.Empty →
      Board.get W
        (removed.foldl (fun b x => b.set W x.pos Content.Empty) b) p
        = Content.Empty := by
  intro removed
  induction removed with
  | nil => intro b p hp; exact hp
  | cons r rest ih =>
    intro b p hp
    exact ih (b.set W r.pos Content.Empty) p (Board.get_set_keeps_empty hp)

/-- After the `// Kill starved sharks.` fold, every removed shark's cell
reads `Empty`. -/
theorem foldl_clear_cells {W : Nat} :
    ∀ (removed : List Shark) (b : Board), ∀ x ∈ removed,
      Board.get W
        (removed.foldl (fun b x => b.set W x.pos Content.Empty) b) x.pos
        = Content.Empty := by
  intro removed
  induction removed with
  | nil => intro b x hx; cases hx
  | cons r rest ih =>
    intro b x hx
    rcases List.mem_cons.1 hx with h | h
    · subst h
      exact foldl_clear_keeps_empty rest _ x.pos (Board.get_set_empty W b x.pos)
    · exact ih (b.set W r.pos Content.Empty) x h

/-- Claim C5: the `// Kill starved sharks.` compaction removes exactly the
sharks whose (post-increment) starvation timer reached the configured
limit, sets each removed shark's cell to `Empty`, and never removes a
shark whose timer is below the limit; moreover a shark that began the tick
below the limit ends its step with timer at most the limit, so removal
happens at the exact tick the timer first reaches the limit. -/
theorem claim_C5_starvation {W H : Nat} {w : World} {rng : Rng}
    (hC : WorldConsistent W H w) (hV : rng.Valid)
    (hlim : w.shark_starves ≤ 255) :
    let fp := fishPhaseAux W H w.fish_repro_time w.occupied rng w.fishes
    let sp := sharkPhaseAux W H w.shark_repro_time fp.1 fp.2.1 w.sharks
    let sharks1 := sp.2.2.1 ++ sp.2.2.2.1
    let sclear := clear_by_cond
      (fun x => decide (w.shark_starves ≤ x.starve)) sharks1
    let b3 := sclear.2.foldl (fun b x => b.set W x.pos Content.Empty) sp.1
    ((World.update W H w rng).1.sharks = sclear.1 ∧
      (World.update W H w rng).1.occupied = b3) ∧
    sclear.1.Perm
      (sharks1.filter (fun x => !(decide (w.shark_starves ≤ x.starve)))) ∧
    sclear.2.Perm
      (sharks1.filter (fun x => decide (w.shark_starves ≤ x.starve))) ∧
    (∀ x ∈ sclear.2, b3.get W x.pos = Content.Empty) ∧
    (∀ i, i < w.sharks.length →
      (w.sharks.getD i ⟨⟨0, 0⟩, 0, 0⟩).starve < w.shark_starves →
      (sp.2.2.1.getD i ⟨⟨0, 0⟩, 0, 0⟩).starve ≤ w.shark_starves) := by
  intro fp sp sharks1 sclear b3
  refine ⟨⟨rfl, rfl⟩, (clear_by_cond_perm _ _).1, (clear_by_cond_perm _ _).2,
    ?_, ?_⟩
  · intro x hx
    exact foldl_clear_cells sclear.2 sp.1 x hx
  · intro i hi hlt
    have hF := fishPhase_spec (τ := w.fish_repro_time) w.fishes w.occupied rng 0
      (by simpa using hC) hV
    have hst := sharkPhase_starve (σ := w.shark_repro_time) w.sharks fp.1 fp.2.1
      (↑((fp.2.2.1 ++ fp.2.2.2).map Fish.pos)) 0 (by simpa using hF.1) hF.2
    rcases hst.2.1 i hi with h1 | h2
    · rw [h1]
      omega
    · rw [h2]
      omega

/-- Witness for C5: a 3×1 world with a lone shark (starvation limit 1):
it starves on the first tick. -/
theorem claim_C5_starvation_witness :
    WorldConsistent 3 1 (World.new 3 1 1 0 1 3 1 [0] [] [1]) ∧
      Rng.Valid ⟨[]⟩ ∧ (World.new 3 1 1 0 1 3 1 [0] [] [1]).shark_starves ≤ 255 ∧
      (let fp := fishPhaseAux 3 1
        (World.new 3 1 1 0 1 3 1 [0] [] [1]).fish_repro_time
        (World.new 3 1 1 0 1 3 1 [0] [] [1]).occupied ⟨[]⟩
        (World.new 3 1 1 0 1 3 1 [0] [] [1]).fishes
      let sp := sharkPhaseAux 3 1
        (World.new 3 1 1 0 1 3 1 [0] [] [1]).shark_repro_time fp.1 fp.2.1
        (World.new 3 1 1 0 1 3 1 [0] [] [1]).sharks
      let sharks1 := sp.2.2.1 ++ sp.2.2.2.1
      let sclear := clear_by_cond
        (fun x => decide ((World.new 3 1 1 0 1 3 1 [0] [] [1]).shark_starves
          ≤ x.starve)) sharks1
      let b3 := sclear.2.foldl (fun b x => b.set 3 x.pos Content.Empty) sp.1
      ((World.update 3 1 (World.new 3 1 1 0 1 3 1 [0] [] [1]) ⟨[]⟩).1.sharks
          = sclear.1 ∧
        (World.update 3 1 (World.new 3 1 1 0 1 3 1 [0] [] [1]) ⟨[]⟩).1.occupied
          = b3) ∧
      sclear.1.Perm (sharks1.filter (fun x =>
        !(decide ((World.new 3 1 1 0 1 3 1 [0] [] [1]).shark_starves
          ≤ x.starve)))) ∧
      sclear.2.Perm (sharks1.filter (fun x =>
        decide ((World.new 3 1 1 0 1 3 1 [0] [] [1]).shark_starves
          ≤ x.starve))) ∧
      (∀ x ∈ sclear.2, b3.get 3 x.pos = Content.Empty) ∧
      (∀ i, i < (World.new 3 1 1 0 1 3 1 [0] [] [1]).sharks.length →
        ((World.new 3 1 1 0 1 3 1 [0] [] [1]).sharks.getD i
          ⟨⟨0, 0⟩, 0, 0⟩).starve
          < (World.new 3 1 1 0 1 3 1 [0] [] [1]).shark_starves →
        (sp.2.2.1.getD i ⟨⟨0, 0⟩, 0, 0⟩).starve
          ≤ (World.new 3 1 1 0 1 3 1 [0] [] [1]).shark_starves)) :=
  ⟨by decide, by decide, by decide,
    claim_C5_starvation (by decide) (by decide) (by decide)⟩

/-- Counterexample to claim C7 as stated: in a reachable tick (a lone
shark on a 3×1 grid, placed by `World::new` with threshold-equal timer so
it breeds), the world after the tick contains a second shark — the
newborn, alive during that tick — whose starvation timer is `0`: it was
not incremented.  The processed shark's timer is `1`. -/
theorem claim_C7_counterexample :
    ([0] : List Nat).Nodup ∧ (∀ ix ∈ ([0] : List Nat), ix < 3 * 1) ∧
      ([0] : List Nat).length = min (0 + 1) (3 * 1) ∧
      (∀ t ∈ ([1] : List Nat), 1 ≤ t ∧ t ≤ 2) ∧
      Rng.Valid ⟨[]⟩ ∧
      (World.new 3 1 1 0 1 2 10 [0] [] [1]).sharks.length = 1 ∧
      ((World.update 3 1 (World.new 3 1 1 0 1 2 10 [0] [] [1])
        ⟨[]⟩).1.sharks.map Shark.starve) = [1, 0] := by
  decide

/-- Claim C7 (amended): every shark present in the shark list at the start
of the tick has its starvation timer incremented exactly once during the
shark phase (after an eat-reset to `0` if it ate, hence `1`); newborn
sharks appended during the phase carry timer `0` and are not incremented
in their birth tick. -/
theorem claim_C7_amended {W H : Nat} {w : World} {rng : Rng}
    (hC : WorldConsistent W H w) (hV : rng.Valid) :
    let fp := fishPhaseAux W H w.fish_repro_time w.occupied rng w.fishes
    let sp := sharkPhaseAux W H w.shark_repro_time fp.1 fp.2.1 w.sharks
    sp.2.2.1.length = w.sharks.length ∧
    (∀ i, i < w.sharks.length →
      (sp.2.2.1.getD i ⟨⟨0, 0⟩, 0, 0⟩).starve = 1 ∨
      (sp.2.2.1.getD i ⟨⟨0, 0⟩, 0, 0⟩).starve
        = ((w.sharks.getD i ⟨⟨0, 0⟩, 0, 0⟩).starve + 1) % 256) ∧
    (∀ nb ∈ sp.2.2.2.1, nb.starve = 0) := by
  intro fp sp
  have hF := fishPhase_spec (τ := w.fish_repro_time) w.fishes w.occupied rng 0
    (by simpa using hC) hV
  have hst := sharkPhase_starve (σ := w.shark_repro_time) w.sharks fp.1 fp.2.1
    (↑((fp.2.2.1 ++ fp.2.2.2).map Fish.pos)) 0 (by simpa using hF.1) hF.2
  exact ⟨hst.1, hst.2.1, fun nb hnb => (hst.2.2 nb hnb).1⟩

/-- Witness for the amended C7 at the counterexample's concrete world. -/
theorem claim_C7_amended_witness :
    WorldConsistent 3 1 (World.new 3 1 1 0 1 2 10 [0] [] [1]) ∧
      Rng.Valid ⟨[]⟩ ∧
      (let fp := fishPhaseAux 3 1
        (World.new 3 1 1 0 1 2 10 [0] [] [1]).fish_repro_time
        (World.new 3 1 1 0 1 2 10 [0] [] [1]).occupied ⟨[]⟩
        (World.new 3 1 1 0 1 2 10 [0] [] [1]).fishes
      let sp := sharkPhaseAux 3 1
        (World.new 3 1 1 0 1 2 10 [0] [] [1]).shark_repro_time fp.1 fp.2.1
        (World.new 3 1 1 0 1 2 10 [0] [] [1]).sharks
      sp.2.2.1.length = (World.new 3 1 1 0 1 2 10 [0] [] [1]).sharks.length ∧
      (∀ i, i < (World.new 3 1 1 0 1 2 10 [0] [] [1]).sharks.length →
        (sp.2.2.1.getD i ⟨⟨0, 0⟩, 0, 0⟩).starve = 1 ∨
        (sp.2.2.1.getD i ⟨⟨0, 0⟩, 0, 0⟩).starve
          = (((World.new 3 1 1 0 1 2 10 [0] [] [1]).sharks.getD i
            ⟨⟨0, 0⟩, 0, 0⟩).starve + 1) % 256) ∧
      (∀ nb ∈ sp.2.2.2.1, nb.starve = 0)) :=
  ⟨by decide, by decide, claim_C7_amended (by decide) (by decide)⟩

/-! ### Shark reproduction timer bounds -/

/-- Counterexample to claim C10 as stated: `World::new` may initialize a
shark's reproduction timer to exactly the threshold
(`gen_range(1..=shark_repro_time)` includes the upper bound).  With
threshold `1`, the lone shark placed by `World::new` moves on the first
tick, its timer increments to `2`, and the exact-equality breed test
(`== 1`) fails — so after one reachable tick its timer `2` exceeds the
threshold `1`, refuting "every shark's reproduction timer is at most the
shark reproduction threshold". -/
theorem claim_C10_counterexample :
    ([0] : List Nat).Nodup ∧ (∀ ix ∈ ([0] : List Nat), ix < 3 * 1) ∧
      ([0] : List Nat).length = min (0 + 1) (3 * 1) ∧
      (∀ t ∈ ([1] : List Nat), 1 ≤ t ∧ t ≤ 1) ∧
      Rng.Valid ⟨[]⟩ ∧
      ((World.update 3 1 (World.new 3 1 1 0 1 1 10 [0] [] [1])
          ⟨[]⟩).1.sharks.map Shark.repro_time) = [2] ∧
      ¬(2 ≤ (World.new 3 1 1 0 1 1 10 [0] [] [1]).shark_repro_time) := by
  decide

/-- A stepped shark's reproduction timer is either untouched (it did not
move) or the incremented-then-maybe-reset value. -/
theorem sharkStep_repro {W H σ : Nat} {b : Board} {fms sms : Multiset Point}
    {s : Shark} {dirs : List (Int × Int)}
    (hC : Consistent W H b fms (s.pos ::ₘ sms))
    (hd : ∀ d ∈ dirs, d ∈ baseDirections) :
    (sharkStep W H σ b s dirs).2.1.repro_time = s.repro_time ∨
      (sharkStep W H σ b s dirs).2.1.repro_time
        = (if (s.repro_time + 1) % 256 = σ then 0
          else (s.repro_time + 1) % 256) := by
  have hss := hC.memShark (Multiset.mem_cons_self s.pos sms)
  unfold sharkStep
  cases hfind : dirs.find?
      (fun d => (b.get W (s.pos.offset W H d.1 d.2)).is_fish) with
  | some d =>
    have hP := List.find?_some hfind
    have hqs : s.pos.offset W H d.1 d.2 ≠ s.pos := by
      intro e
      rw [e] at hP
      exact Content.not_fish_and_shark hP hss.2.1
    rw [sharkEat_eq_some hfind]
    dsimp only
    rw [if_neg (show ¬(s.pos = s.pos.offset W H d.1 d.2) from
      fun e => hqs e.symm)]
    dsimp only
    rw [if_pos (show s.pos ≠ s.pos.offset W H d.1 d.2 from
      fun e => hqs e.symm)]
    by_cases hr : (s.repro_time + 1) % 256 = σ
    · rw [if_pos hr, if_pos hr]
      right
      rfl
    · rw [if_neg hr, if_neg hr]
      right
      rfl
  | none =>
    rw [sharkEat_eq_none hfind]
    dsimp only
    rw [if_pos rfl]
    cases hfind2 : dirs.find?
        (fun d => (b.get W (s.pos.offset W H d.1 d.2)).is_empty) with
    | some d =>
      have hP := List.find?_some hfind2
      have hqs : s.pos.offset W H d.1 d.2 ≠ s.pos := by
        intro e
        rw [e] at hP
        exact Content.not_empty_and_shark hP hss.2.1
      rw [sharkMove_eq_some hfind2]
      dsimp only
      rw [if_pos (show s.pos ≠ s.pos.offset W H d.1 d.2 from
        fun e => hqs e.symm)]
      by_cases hr : (s.repro_time + 1) % 256 = σ
      · rw [if_pos hr, if_pos hr]
        right
        rfl
      · rw [if_neg hr, if_neg hr]
        right
        rfl
    | none =>
      rw [sharkMove_eq_none hfind2]
      dsimp only
      rw [if_neg (show ¬(s.pos ≠ s.pos) from fun h => h rfl)]
      left
      rfl

/-- Claim C10 (amended): the bound `repro_time ≤ threshold` is not an
invariant — a shark initialized at exactly the threshold (allowed by
`gen_range(1..=threshold)`) exceeds it on its first move and its timer can
wrap modulo `256` (see the counterexample).  What does hold: a shark whose
timer is strictly below the threshold keeps it strictly below through any
consistent step (the `u8` increment cannot overflow for it), and any
newborn starts at `0`, also strictly below. -/
theorem claim_C10_amended {W H σ : Nat} {b : Board} {fms sms : Multiset Point}
    {s : Shark} {dirs : List (Int × Int)}
    (hC : Consistent W H b fms (s.pos ::ₘ sms))
    (hd : ∀ d ∈ dirs, d ∈ baseDirections)
    (hσ : σ ≤ 255) (hs : s.repro_time < σ) :
    (sharkStep W H σ b s dirs).2.1.repro_time < σ ∧
      (∀ nb, (sharkStep W H σ b s dirs).2.2.1 = some nb →
        nb.repro_time < σ) := by
  constructor
  · rcases sharkStep_repro (σ := σ) hC hd with h | h
    · rw [h]; exact hs
    · rw [h]
      split <;> omega
  · intro nb hnb
    have heq := sharkStep_newborn_eq (σ := σ) hC hd
    rw [hnb] at heq
    split at heq
    · have he2 : nb = Shark.new s.pos := by simpa using heq
      rw [he2]
      show 0 < σ
      omega
    · exact Option.noConfusion heq

/-- Witness for the amended C10: a lone shark with timer `1`, threshold
`3`, on a 3×1 grid. -/
theorem claim_C10_amended_witness :
    Consistent 3 1 (Board.mk [Content.Shark, Content.Empty, Content.Empty])
        0 ((⟨⟨0, 0⟩, 1, 0⟩ : Shark).pos ::ₘ 0) ∧
      (∀ d ∈ baseDirections, d ∈ baseDirections) ∧ (3 : Nat) ≤ 255 ∧
      (⟨⟨0, 0⟩, 1, 0⟩ : Shark).repro_time < 3 ∧
      ((sharkStep 3 1 3 (Board.mk [Content.Shark, Content.Empty, Content.Empty])
          ⟨⟨0, 0⟩, 1, 0⟩ baseDirections).2.1.repro_time < 3 ∧
        (∀ nb, (sharkStep 3 1 3
            (Board.mk [Content.Shark, Content.Empty, Content.Empty])
            ⟨⟨0, 0⟩, 1, 0⟩ baseDirections).2.2.1 = some nb →
          nb.repro_time < 3)) :=
  ⟨by decide, by decide, by decide, by decide,
    @claim_C10_amended 3 1 3
      (Board.mk [Content.Shark, Content.Empty, Content.Empty]) 0 0
      ⟨⟨0, 0⟩, 1, 0⟩ baseDirections (by decide) (by decide) (by decide)
      (by decide)⟩

/-! ### Initialization capacity -/

/-- Counterexample to claim C1 as stated: on a 1×1 grid with one fish and
one shark requested (F+S = 2 > 1 = capacity), `World::new` cannot fail —
it has no error path — and `choose_multiple` returns only
`min (F+S) (W*H) = 1` index, so initialization silently places a single
entity instead of failing with a capacity error. -/
theorem claim_C1_counterexample :
    ([0] : List Nat).Nodup ∧ (∀ ix ∈ ([0] : List Nat), ix < 1 * 1) ∧
      ([0] : List Nat).length = min (1 + 1) (1 * 1) ∧
      1 * 1 < 1 + 1 ∧
      (World.new 1 1 1 1 1 1 1 [0] [1] []).fishes.length +
        (World.new 1 1 1 1 1 1 1 [0] [1] []).sharks.length = 1 := by
  decide

/-- Claim C1 (amended): when the requested population exceeds the grid
capacity, `World::new` does not fail; it silently places exactly
`min (F+S) (W*H)` entities (fish first), per the `choose_multiple`
contract. -/
theorem claim_C1_amended {W H n_sharks n_fish frt srt sst : Nat}
    {chosen fishTimers sharkTimers : List Nat}
    (hlen : chosen.length = min (n_fish + n_sharks) (W * H))
    (hft : fishTimers.length = (chosen.take n_fish).length)
    (hst : sharkTimers.length = (chosen.drop n_fish).length) :
    (World.new W H n_sharks n_fish frt srt sst chosen fishTimers
        sharkTimers).fishes.length +
      (World.new W H n_sharks n_fish frt srt sst chosen fishTimers
        sharkTimers).sharks.length
      = min (n_fish + n_sharks) (W * H) := by
  unfold World.new
  dsimp only
  rw [List.length_map, List.length_map, List.length_zip, List.length_zip,
    hft, hst, Nat.min_self, Nat.min_self, List.length_take, List.length_drop,
    ← hlen]
  omega

/-- Witness for the amended C1: a 1×1 grid asked for two entities ends up
with exactly `min 2 1 = 1`. -/
theorem claim_C1_amended_witness :
    ([0] : List Nat).length = min (1 + 1) (1 * 1) ∧
      ([1] : List Nat).length = (([0] : List Nat).take 1).length ∧
      ([] : List Nat).length = (([0] : List Nat).drop 1).length ∧
      (World.new 1 1 1 1 1 1 1 [0] [1] []).fishes.length +
        (World.new 1 1 1 1 1 1 1 [0] [1] []).sharks.length
        = min (1 + 1) (1 * 1) :=
  ⟨by decide, by decide, by decide,
    claim_C1_amended (by decide) (by decide) (by decide)⟩

/-! ### Transient cell codes are not reset -/

/-- Counterexample to claim C2 as stated: on a 4×1 torus seeded by
`World::new` with fish at cells 0, 2, 3 (threshold 2, the cell-0 fish one
step from breeding), tick 1 ends with cell 0 holding the transient
`NewFish` code and the board full.  Tick 2 performs no reset pass and every
fish is trapped, so the board — including the `NewFish` cell — is
bit-for-bit unchanged through the whole of tick 2's scan: the transient
code set in tick 1 is still there during and after the following tick. -/
theorem claim_C2_counterexample :
    ([0, 2, 3] : List Nat).Nodup ∧
      (∀ ix ∈ ([0, 2, 3] : List Nat), ix < 4 * 1) ∧
      ([0, 2, 3] : List Nat).length = min (3 + 0) (4 * 1) ∧
      (∀ t ∈ ([1, 1, 1] : List Nat), 1 ≤ t ∧ t ≤ 2) ∧
      Rng.Valid ⟨[]⟩ ∧
      ((World.update 4 1 (World.new 4 1 0 3 2 1 1 [0, 2, 3] [1, 1, 1] [])
          ⟨[]⟩).1.occupied.get 4 ⟨0, 0⟩ = Content.NewFish ∧
        (World.update 4 1
            (World.update 4 1 (World.new 4 1 0 3 2 1 1 [0, 2, 3] [1, 1, 1] [])
              ⟨[]⟩).1 ⟨[]⟩).1.occupied.data
          = (World.update 4 1 (World.new 4 1 0 3 2 1 1 [0, 2, 3] [1, 1, 1] [])
              ⟨[]⟩).1.occupied.data ∧
        (World.update 4 1
            (World.update 4 1 (World.new 4 1 0 3 2 1 1 [0, 2, 3] [1, 1, 1] [])
              ⟨[]⟩).1 ⟨[]⟩).1.occupied.get 4 ⟨0, 0⟩ = Content.NewFish) := by
  decide

/-- Claim C2 (amended): `World::update` contains no reset pass for the
transient codes: an entity whose direction scans all fail leaves the board
completely unchanged, so a cell holding `NewFish`/`NewShark`/`FedShark`
keeps that code — across whole ticks — until some later step happens to
overwrite that cell (its occupant moving away, being eaten or starving, or
another entity moving in). -/
theorem claim_C2_amended {W H τ σ : Nat} {b bs : Board} {f : Fish} {s : Shark}
    {dirsf dirss : List (Int × Int)}
    (hf : dirsf.find?
      (fun d => (b.get W (f.pos.offset W H d.1 d.2)).is_empty) = none)
    (he : dirss.find?
      (fun d => (bs.get W (s.pos.offset W H d.1 d.2)).is_fish) = none)
    (hm : dirss.find?
      (fun d => (bs.get W (s.pos.offset W H d.1 d.2)).is_empty) = none) :
    (fishStep W H τ b f dirsf).1 = b ∧ (sharkStep W H σ bs s dirss).1 = bs := by
  rw [fishStep_stuck hf, sharkStep_stuck he hm]
  exact ⟨rfl, rfl⟩

/-- Witness for the amended C2: trapped occupants of 1×1 boards whose
single cell holds a transient code (`NewFish` resp. `FedShark`); the step
leaves the transient cell untouched. -/
theorem claim_C2_amended_witness :
    (baseDirections.find? (fun d => ((Board.mk [Content.NewFish]).get 1
        ((⟨⟨0, 0⟩, 1⟩ : Fish).pos.offset 1 1 d.1 d.2)).is_empty) = none) ∧
    (baseDirections.find? (fun d => ((Board.mk [Content.FedShark]).get 1
        ((⟨⟨0, 0⟩, 1, 0⟩ : Shark).pos.offset 1 1 d.1 d.2)).is_fish) = none) ∧
    (baseDirections.find? (fun d => ((Board.mk [Content.FedShark]).get 1
        ((⟨⟨0, 0⟩, 1, 0⟩ : Shark).pos.offset 1 1 d.1 d.2)).is_empty) = none) ∧
    ((fishStep 1 1 2 (Board.mk [Content.NewFish]) ⟨⟨0, 0⟩, 1⟩
        baseDirections).1 = Board.mk [Content.NewFish] ∧
      (sharkStep 1 1 2 (Board.mk [Content.FedShark]) ⟨⟨0, 0⟩, 1, 0⟩
        baseDirections).1 = Board.mk [Content.FedShark]) :=
  ⟨by decide, by decide, by decide,
    @claim_C2_amended 1 1 2 2 (Board.mk [Content.NewFish])
      (Board.mk [Content.FedShark]) ⟨⟨0, 0⟩, 1⟩ ⟨⟨0, 0⟩, 1, 0⟩
      baseDirections baseDirections (by decide) (by decide) (by decide)⟩
